import Mathlib

/-!
# FrankenText: Markov-chain sentence generator (`src/main.c`)

A shallow embedding of the tokenizer, the successor-table builder and the
sentence generator of `src/main.c`, followed by theorems about them.

Modelling conventions.

* A C string is the list of its characters before the terminating NUL
  (`CStr`).  The `book` array is a `List Char` holding the array contents
  without the final `'\0'` that the initialiser appends; every loop that scans
  it stops at the first NUL it meets, as the C loops do.
* `tokens[0 .. tokens_size)` is the list `Model.tokens`; `tokens_size` is its
  length.  Row `i` of the successor table, `succs[i][0 .. succs_sizes[i])`, is
  the list `Model.succs i`; `succs_sizes[i]` is its length.  The successor
  entries are pointers to the (never modified) strings of `tokens`, so an entry
  is represented by the string it points to.
* `exit(EXIT_FAILURE)` in `token_id` is the result `none`.
* `rand()` is a stream `rnd : Nat → Nat` read at an explicit position; each
  `generate_sentence` call of `main` reads it from where the previous call
  stopped.
* A loop that need not terminate takes a step budget (`fuel`, `attempts`) and
  reports when it is still running once the budget is used up.
* `size_t` is 64 bits wide.  The only `size_t` operation that can wrap is
  `sentence_size - 1`; sums of lengths of strings that coexist in memory cannot
  reach `2 ^ 64`.
* `strcat` into the sentence buffer is list append; a write past the capacity
  is visible as a resulting string whose length is not below the capacity.
-/

namespace FrankenText

/-- A C string: the characters before the terminating NUL. -/
abbrev CStr := List Char

/-- The NUL character. -/
def NUL : Char := Char.ofNat 0

def MAX_WORD_COUNT : Nat := 50000

def MAX_SUCCESSOR_COUNT : Nat := MAX_WORD_COUNT / 10

/-- `isprint` in the "C" locale (the program never calls `setlocale`). -/
def isprint (c : Char) : Bool := decide (0x20 ≤ c.toNat) && decide (c.toNat ≤ 0x7E)

/-- `isupper` in the "C" locale. -/
def isupper (c : Char) : Bool := decide (0x41 ≤ c.toNat) && decide (c.toNat ≤ 0x5A)

/-- The globals `tokens`, `tokens_size`, `succs`, `succs_sizes`. -/
structure Model where
  tokens : List CStr
  succs : Nat → List CStr

/-- The state at program start: `tokens_size = 0`, all `succs_sizes` zero. -/
def Model.empty : Model := ⟨[], fun _ => []⟩

/-- `replace_non_printable_chars_with_space`: the loop runs up to the first NUL. -/
def replace_non_printable_chars_with_space : List Char → List Char
  | [] => []
  | c :: cs =>
    if c = NUL then c :: cs
    else (if !isprint c then ' ' else c) :: replace_non_printable_chars_with_space cs

/-- The linear scan of `token_id`: the first index `i ≥ base` whose entry
equals `token` (`strcmp(tokens[i], token) == 0`). -/
def find_token (token : CStr) : List CStr → Nat → Option Nat
  | [], _ => none
  | t :: ts, i => if t = token then some i else find_token token ts (i + 1)

/-- `token_id`: the id of a known token, otherwise a new entry is created;
`none` is `exit(EXIT_FAILURE)` after "Token limit reached!". -/
def token_id (st : Model) (token : CStr) : Option (Nat × Model) :=
  match find_token token st.tokens 0 with
  | some i => some (i, st)
  | none =>
    if st.tokens.length ≥ MAX_WORD_COUNT then none
    else some (st.tokens.length,
      { tokens := st.tokens ++ [token],
        succs := Function.update st.succs st.tokens.length [] })

/-- `append_to_succs`. -/
def append_to_succs (st : Model) (token succ : CStr) : Option Model :=
  match token_id st token with
  | none => none
  | some (id, st1) =>
    match token_id st1 succ with
    | none => none
    | some (succ_id, st2) =>
      if (st2.succs id).length < MAX_SUCCESSOR_COUNT then
        some { st2 with
          succs := Function.update st2.succs id
            (st2.succs id ++ [st2.tokens.getD succ_id []]) }
      else some st2

/-- One call of `strtok_r` on the text at the save pointer: the token found and
the text at the new save pointer, or `none` for a NULL result. -/
def strtok_r (delimiters : CStr) (s : List Char) : Option (CStr × List Char) :=
  match s.dropWhile (fun c => c != NUL && decide (c ∈ delimiters)) with
  | [] => none
  | c :: s1 =>
    if c = NUL then none
    else
      let tok := (c :: s1).takeWhile (fun c => c != NUL && !decide (c ∈ delimiters))
      match (c :: s1).dropWhile (fun c => c != NUL && !decide (c ∈ delimiters)) with
      | [] => some (tok, [])
      | d :: r => if d = NUL then some (tok, d :: r) else some (tok, r)

/-- The tokens returned by the successive `strtok_r` calls of
`tokenize_and_fill_succs`, at most `fuel` of them. -/
def strtok_all (delimiters : CStr) : Nat → List Char → List CStr
  | 0, _ => []
  | fuel + 1, s =>
    match strtok_r delimiters s with
    | none => []
    | some (tok, rest) => tok :: strtok_all delimiters fuel rest

/-- The `while (token)` loop of `tokenize_and_fill_succs` over the tokens that
`strtok_r` returns; `prev` is `none` for the NULL pointer. -/
def tokenize_loop : Model → Option CStr → List CStr → Option Model
  | st, _, [] => some st
  | st, prev, token :: rest =>
    match token_id st token with
    | none => none
    | some (_, st1) =>
      match prev with
      | none => tokenize_loop st1 (some token) rest
      | some p =>
        match append_to_succs st1 p token with
        | none => none
        | some st2 => tokenize_loop st2 (some token) rest

/-- `tokenize_and_fill_succs`.  Every `strtok_r` call that returns a token
consumes at least one character, so `str.length + 1` calls reach the NULL
result (`strtok_all_fuel`). -/
def tokenize_and_fill_succs (st : Model) (delimiters : CStr) (str : List Char) :
    Option Model :=
  tokenize_loop st none (strtok_all delimiters (str.length + 1) str)

/-- `last_char`. -/
def last_char (str : CStr) : Char :=
  if str.length ≠ 0 then str.getD (str.length - 1) NUL else NUL

/-- `token_ends_a_sentence`. -/
def token_ends_a_sentence (token : CStr) : Bool :=
  let c := last_char token
  c == '.' || c == '?' || c == '!'

/-- The test `isupper((unsigned char)tokens[id][0])`; the first character of an
empty string is its NUL terminator. -/
def starts_upper (token : CStr) : Bool := isupper (token.headD NUL)

/-- Outcome of a call of `generate_sentence`. -/
inductive GenResult where
  /-- The call returned: buffer contents, globals, position in the random stream. -/
  | done (sentence : CStr) (st : Model) (pos : Nat)
  /-- `exit(EXIT_FAILURE)` from `token_id`. -/
  | fatal
  /-- `rand() % tokens_size` with `tokens_size == 0`. -/
  | undefined
  /-- The loop was still running when the step budget ran out. -/
  | out_of_fuel

/-- The sentence of a call that returned. -/
def GenResult.sentence? : GenResult → Option CStr
  | .done s _ _ => some s
  | _ => none

/-- `random_token_id_that_starts_a_sentence`, at most `fuel` iterations of the
`do … while` loop.  `some (some (id, pos))` is a return of `id` with the random
stream at `pos`; `some none` means the loop is still running after `fuel`
iterations; `none` is the undefined `rand() % tokens_size` with
`tokens_size == 0`. -/
def random_token_id_that_starts_a_sentence (st : Model) (rnd : Nat → Nat) :
    Nat → Nat → Option (Option (Nat × Nat))
  | 0, _ => some none
  | fuel + 1, pos =>
    if st.tokens.length = 0 then none
    else
      let id := rnd pos % st.tokens.length
      if starts_upper (st.tokens.getD id []) then some (some (id, pos + 1))
      else random_token_id_that_starts_a_sentence st rnd fuel (pos + 1)

/-- The value of the `size_t` expression `sentence_size - 1`. -/
def size_pred (sentence_size : Nat) : Nat := (sentence_size + (2 ^ 64 - 1)) % 2 ^ 64

/-- The `do … while` loop of `generate_sentence`, at most `fuel` iterations. -/
def walk (sentence_size : Nat) (rnd : Nat → Nat) :
    Nat → Model → Nat → CStr → Nat → GenResult
  | 0, _, _, _, _ => .out_of_fuel
  | fuel + 1, st, current_token_id, sentence, pos =>
    if (st.succs current_token_id).length = 0 then .done sentence st pos
    else
      let next_token := (st.succs current_token_id).getD
        (rnd pos % (st.succs current_token_id).length) []
      let sentence_len_next := sentence.length + next_token.length + 2
      if sentence_len_next ≥ size_pred sentence_size then .done sentence st (pos + 1)
      else
        let sentence1 := sentence ++ [' '] ++ next_token
        if token_ends_a_sentence next_token then .done sentence1 st (pos + 1)
        else
          match token_id st next_token with
          | none => .fatal
          | some (id, st1) =>
            if sentence_len_next < size_pred sentence_size then
              walk sentence_size rnd fuel st1 id sentence1 (pos + 1)
            else .done sentence1 st1 (pos + 1)

/-- The part of `generate_sentence` after the start token has been chosen. -/
def generate_from (st : Model) (sentence : CStr) (sentence_size : Nat)
    (rnd : Nat → Nat) (fuel : Nat) (current_token_id pos : Nat) : GenResult :=
  let token := st.tokens.getD current_token_id []
  let sentence1 := sentence ++ token
  if token_ends_a_sentence token then .done sentence1 st pos
  else walk sentence_size rnd fuel st current_token_id sentence1 pos

/-- `generate_sentence(sentence, sentence_size)`; `sentence` is the contents of
the buffer at the call, `fuel` bounds the iterations of each of the two loops. -/
def generate_sentence (st : Model) (sentence : CStr) (sentence_size : Nat)
    (rnd : Nat → Nat) (fuel : Nat) : GenResult :=
  match random_token_id_that_starts_a_sentence st rnd fuel 0 with
  | none => .undefined
  | some none => .out_of_fuel
  | some (some (current_token_id, pos)) =>
    generate_from st sentence sentence_size rnd fuel current_token_id pos

/-- The delimiters used by `main`. -/
def main_delimiters : CStr := [' ', '\n', '\r']

/-- The example corpus of the specification. -/
def victor_corpus : List Char := "Victor said hello. Did she answer?".toList

/-- The tokens of the example corpus. -/
def victor_tokens : List CStr :=
  ["Victor".toList, "said".toList, "hello.".toList, "Did".toList, "she".toList,
    "answer?".toList]

/-- The tokens of the corpus "hello world". -/
def lower_tokens : List CStr := ["hello".toList, "world".toList]

/-- The tokens of the corpus "Who? Me!". -/
def who_me_tokens : List CStr := ["Who?".toList, "Me!".toList]

/-- Position of the first occurrence of `a` in `l` (`l.length` when there is none). -/
def first_index (a : CStr) : List CStr → Nat
  | [] => 0
  | x :: xs => if x = a then 0 else first_index a xs + 1

/-- The distinct tokens of a token sequence, in order of first occurrence. -/
def registry_of (ts : List CStr) : List CStr :=
  ts.foldl (fun r t => if t ∈ r then r else r ++ [t]) []

/-- The sequence `[t_{i+1} | 0 ≤ i < n - 1, t_i = A]` in increasing order of `i`. -/
def followers (A : CStr) (ts : List CStr) : List CStr :=
  ((ts.zip ts.tail).filter (fun p => decide (p.1 = A))).map Prod.snd

/-- The model that the specification prescribes for a token sequence: the
registry of its distinct tokens in order of first occurrence and, for each of
them, its followers truncated to `MAX_SUCCESSOR_COUNT` entries. -/
def model_of (ts : List CStr) : Model where
  tokens := registry_of ts
  succs := fun i =>
    match (registry_of ts)[i]? with
    | some A => (followers A ts).take MAX_SUCCESSOR_COUNT
    | none => []

/-- A registry with the single token "a" whose successor row holds `n` copies
of it. -/
def repeated_model (n : Nat) : Model :=
  ⟨[['a']], Function.update (fun _ => []) 0 (List.replicate n ['a'])⟩

/-- The text from the save pointer on is printable up to its first NUL. -/
def PrintableToNul : List Char → Prop
  | [] => True
  | c :: cs => c = NUL ∨ (isprint c = true ∧ PrintableToNul cs)

/-- The tokens that the `do … while` loop of `generate_sentence` appends to the
sentence, in order (the loop of `walk`, recording each `next_token` that is
copied into the buffer). -/
def walk_tokens (sentence_size : Nat) (rnd : Nat → Nat) :
    Nat → Model → Nat → CStr → Nat → List CStr
  | 0, _, _, _, _ => []
  | fuel + 1, st, current_token_id, sentence, pos =>
    if (st.succs current_token_id).length = 0 then []
    else
      let next_token := (st.succs current_token_id).getD
        (rnd pos % (st.succs current_token_id).length) []
      if sentence.length + next_token.length + 2 ≥ size_pred sentence_size then []
      else if token_ends_a_sentence next_token then [next_token]
      else
        match token_id st next_token with
        | none => [next_token]
        | some (id, st1) =>
          next_token ::
            walk_tokens sentence_size rnd fuel st1 id (sentence ++ [' '] ++ next_token) (pos + 1)

/-- The tokens that `generate_sentence` appends to the buffer, in order: the
start token, then those of the walk. -/
def sentence_tokens (st : Model) (sentence : CStr) (sentence_size : Nat)
    (rnd : Nat → Nat) (fuel : Nat) : List CStr :=
  match random_token_id_that_starts_a_sentence st rnd fuel 0 with
  | some (some (current_token_id, pos)) =>
    let token := st.tokens.getD current_token_id []
    if token_ends_a_sentence token then [token]
    else token :: walk_tokens sentence_size rnd fuel st current_token_id (sentence ++ token) pos
  | _ => []

/-- One acceptance loop of `main`:
`do { memset(sentence, 0, …); generate_sentence(sentence, sentence_size); }
while (last_char(sentence) != terminator);`, at most `attempts` iterations.
`off` is the position in the random stream at the start of the loop; the
result carries the sentence that is printed and the position after the loop. -/
def retry_loop (terminator : Char) (sentence_size : Nat) (rnd : Nat → Nat) (fuel : Nat) :
    Nat → Model → Nat → GenResult
  | 0, _, _ => .out_of_fuel
  | attempts + 1, st, off =>
    match generate_sentence st [] sentence_size (fun k => rnd (off + k)) fuel with
    | .done sentence st1 pos =>
      if last_char sentence != terminator then
        retry_loop terminator sentence_size rnd fuel attempts st1 (off + pos)
      else .done sentence st1 (off + pos)
    | .fatal => .fatal
    | .undefined => .undefined
    | .out_of_fuel => .out_of_fuel

/-- How a run of `main` ends. -/
inductive MainStatus where
  /-- `main` returned. -/
  | returned
  /-- `exit(EXIT_FAILURE)`. -/
  | exit_failure
  /-- `rand() % tokens_size` with `tokens_size == 0`. -/
  | undefined
  /-- A loop was still running when the step budget ran out. -/
  | out_of_fuel

/-- Lines 153–166 of `main`, run on the globals `st`: the acceptance loop for
'?', `puts(sentence)`, `puts("")`, the acceptance loop for '!' and
`puts(sentence)`.  The result is the list of strings passed to `puts`, in
order, and how the run ends. -/
def main_loops (st : Model) (rnd : Nat → Nat) (fuel attempts : Nat) :
    List CStr × MainStatus :=
  match retry_loop '?' 1000 rnd fuel attempts st 0 with
  | .done first st1 off =>
    match retry_loop '!' 1000 rnd fuel attempts st1 off with
    | .done second _ _ => ([first, [], second], .returned)
    | .fatal => ([first, []], .exit_failure)
    | .undefined => ([first, []], .undefined)
    | .out_of_fuel => ([first, []], .out_of_fuel)
  | .fatal => ([], .exit_failure)
  | .undefined => ([], .undefined)
  | .out_of_fuel => ([], .out_of_fuel)

/-- `main` on the embedded text `book`, with `rnd` the values that `rand()`
returns after `srand(time(NULL))`: the strings passed to `puts`, in order, and
how the run ends. -/
def main (book : List Char) (rnd : Nat → Nat) (fuel attempts : Nat) :
    List CStr × MainStatus :=
  match tokenize_and_fill_succs Model.empty main_delimiters
      (replace_non_printable_chars_with_space book) with
  | none => ([], .exit_failure)
  | some st => main_loops st rnd fuel attempts

/-- The tokens `a`, `aa`, `aaa`, … of lengths 1 to `n`. -/
def a_tokens (n : Nat) : List CStr := (List.range n).map (fun i => List.replicate (i + 1) 'a')

/-- A registry holding the `n` tokens `a`, `aa`, …, in which the successor row
of "a" holds `k` copies of "a" and every other row is empty. -/
def crowded_model (n k : Nat) : Model :=
  ⟨a_tokens n, fun i => if i = 0 then List.replicate k ['a'] else []⟩

/-- One call of `token_id` or `append_to_succs` that does not exit. -/
inductive Step : Model → Model → Prop where
  | token_id (st : Model) (token : CStr) (id : Nat) (st1 : Model) :
      token_id st token = some (id, st1) → Step st st1
  | append_to_succs (st : Model) (token succ : CStr) (st1 : Model) :
      append_to_succs st token succ = some st1 → Step st st1

/-- The state `st1` is reached from `st` by finitely many non-fatal calls of
`token_id` and `append_to_succs`. -/
def Reach (st st1 : Model) : Prop := Relation.ReflTransGen Step st st1

/-- Model well-formedness: the registry has no duplicate, every successor entry
is a registered token, the capacities are respected, and the rows beyond
`tokens_size` are empty. -/
structure WellFormed (st : Model) : Prop where
  nodup : st.tokens.Nodup
  succs_mem : ∀ i, ∀ x ∈ st.succs i, x ∈ st.tokens
  tokens_le : st.tokens.length ≤ MAX_WORD_COUNT
  succs_le : ∀ i, (st.succs i).length ≤ MAX_SUCCESSOR_COUNT
  succs_nil : ∀ i, st.tokens.length ≤ i → st.succs i = []

/-! ## The registry: `token_id` -/

theorem first_index_lt {a : CStr} {l : List CStr} (h : a ∈ l) : first_index a l < l.length := by
  induction l with
  | nil => simp at h
  | cons x xs ih =>
    by_cases hx : x = a
    · simp [first_index, hx]
    · have : a ∈ xs := by
        rcases List.mem_cons.mp h with h1 | h1
        · exact absurd h1.symm hx
        · exact h1
      simp [first_index, hx, ih this]

theorem first_index_not_mem {a : CStr} {l : List CStr} (h : a ∉ l) :
    first_index a l = l.length := by
  induction l with
  | nil => rfl
  | cons x xs ih =>
    have hx : ¬ x = a := fun e => h (by simp [e])
    have : a ∉ xs := fun e => h (List.mem_cons_of_mem _ e)
    simp [first_index, hx, ih this]

theorem first_index_get? {a : CStr} {l : List CStr} (h : a ∈ l) :
    l[first_index a l]? = some a := by
  induction l with
  | nil => simp at h
  | cons x xs ih =>
    by_cases hx : x = a
    · simp [first_index, hx]
    · have : a ∈ xs := by
        rcases List.mem_cons.mp h with h1 | h1
        · exact absurd h1.symm hx
        · exact h1
      simp [first_index, hx, ih this]

theorem first_index_append_of_mem {a : CStr} {l : List CStr} (m : List CStr) (h : a ∈ l) :
    first_index a (l ++ m) = first_index a l := by
  induction l with
  | nil => simp at h
  | cons x xs ih =>
    by_cases hx : x = a
    · simp [first_index, hx]
    · have : a ∈ xs := by
        rcases List.mem_cons.mp h with h1 | h1
        · exact absurd h1.symm hx
        · exact h1
      simp [first_index, hx, ih this]

theorem first_index_before {a : CStr} {l : List CStr} (j : Nat) (hj : j < first_index a l) :
    l[j]? ≠ some a := by
  induction l generalizing j with
  | nil => simp [first_index] at hj
  | cons x xs ih =>
    by_cases hx : x = a
    · simp [first_index, hx] at hj
    · cases j with
      | zero => simpa using hx
      | succ j =>
        simp only [first_index, hx, if_false, Nat.add_lt_add_iff_right] at hj
        simpa using ih j hj

theorem find_token_eq (token : CStr) (ts : List CStr) (b : Nat) :
    find_token token ts b = if token ∈ ts then some (b + first_index token ts) else none := by
  induction ts generalizing b with
  | nil => simp [find_token]
  | cons t ts ih =>
    by_cases h : t = token
    · simp [find_token, first_index, h]
    · have h1 : ¬ token = t := fun e => h e.symm
      simp only [find_token, first_index, h, if_false, ih, List.mem_cons, h1, false_or]
      split
      · simp; omega
      · rfl

theorem token_id_of_mem (st : Model) (token : CStr) (h : token ∈ st.tokens) :
    token_id st token = some (first_index token st.tokens, st) := by
  simp [token_id, find_token_eq, h]

theorem token_id_of_not_mem (st : Model) (token : CStr) (h : token ∉ st.tokens)
    (hlt : st.tokens.length < MAX_WORD_COUNT) :
    token_id st token = some (st.tokens.length,
      { tokens := st.tokens ++ [token],
        succs := Function.update st.succs st.tokens.length [] }) := by
  simp [token_id, find_token_eq, h, Nat.not_le.mpr hlt]

theorem token_id_eq_none (st : Model) (token : CStr) :
    token_id st token = none ↔ token ∉ st.tokens ∧ MAX_WORD_COUNT ≤ st.tokens.length := by
  by_cases h : token ∈ st.tokens
  · simp [token_id_of_mem st token h, h]
  · by_cases hlt : st.tokens.length < MAX_WORD_COUNT
    · simp [token_id_of_not_mem st token h hlt, Nat.not_le.mpr hlt]
    · simp [token_id, find_token_eq, h, Nat.not_lt.mp hlt]

/-- What a successful `token_id` call returns and does. -/
theorem token_id_some (st : Model) (token : CStr) (id : Nat) (st1 : Model)
    (h : token_id st token = some (id, st1)) :
    (token ∈ st.tokens ∧ id = first_index token st.tokens ∧ st1 = st) ∨
    (token ∉ st.tokens ∧ st.tokens.length < MAX_WORD_COUNT ∧ id = st.tokens.length ∧
      st1 = { tokens := st.tokens ++ [token],
              succs := Function.update st.succs st.tokens.length [] }) := by
  by_cases hm : token ∈ st.tokens
  · rw [token_id_of_mem st token hm] at h
    simp only [Option.some.injEq, Prod.mk.injEq] at h
    exact Or.inl ⟨hm, h.1.symm, h.2.symm⟩
  · by_cases hlt : st.tokens.length < MAX_WORD_COUNT
    · rw [token_id_of_not_mem st token hm hlt] at h
      simp only [Option.some.injEq, Prod.mk.injEq] at h
      exact Or.inr ⟨hm, hlt, h.1.symm, h.2.symm⟩
    · have := (token_id_eq_none st token).mpr ⟨hm, Nat.not_lt.mp hlt⟩
      rw [this] at h; cases h

theorem token_id_tokens (st : Model) (token : CStr) (id : Nat) (st1 : Model)
    (h : token_id st token = some (id, st1)) :
    (∃ l, st1.tokens = st.tokens ++ l) ∧ id < st1.tokens.length ∧
      st1.tokens[id]? = some token ∧ token ∈ st1.tokens := by
  rcases token_id_some st token id st1 h with ⟨hm, hid, hst⟩ | ⟨hm, _, hid, hst⟩
  · subst hst; subst hid
    exact ⟨⟨[], by simp⟩, first_index_lt hm, first_index_get? hm, hm⟩
  · subst hst; subst hid
    exact ⟨⟨[token], rfl⟩, by simp, by simp, by simp⟩

/-! ## The successor table: `append_to_succs` -/

/-- What a successful `append_to_succs` call does, in terms of its two
`token_id` calls. -/
theorem append_to_succs_some (st : Model) (token succ : CStr) (st3 : Model)
    (h : append_to_succs st token succ = some st3) :
    ∃ id st1 succ_id st2, token_id st token = some (id, st1) ∧
      token_id st1 succ = some (succ_id, st2) ∧
      st3 = if (st2.succs id).length < MAX_SUCCESSOR_COUNT then
          Model.mk st2.tokens (Function.update st2.succs id
              (st2.succs id ++ [st2.tokens.getD succ_id []]))
        else st2 := by
  unfold append_to_succs at h
  cases h1 : token_id st token with
  | none => simp [h1] at h
  | some r1 =>
    obtain ⟨id, st1⟩ := r1
    cases h2 : token_id st1 succ with
    | none => simp [h1, h2] at h
    | some r2 =>
      obtain ⟨succ_id, st2⟩ := r2
      refine ⟨id, st1, succ_id, st2, rfl, h2, ?_⟩
      simp only [h1, h2] at h
      split at h
      · rename_i hlt
        simp only [hlt, if_true]
        exact (Option.some.inj h).symm
      · rename_i hlt
        simp only [hlt, if_false]
        exact (Option.some.inj h).symm

theorem wellFormed_empty : WellFormed Model.empty where
  nodup := List.nodup_nil
  succs_mem := by intro i x hx; simp [Model.empty] at hx
  tokens_le := by simp [Model.empty]
  succs_le := by intro i; simp [Model.empty]
  succs_nil := by intro i _; rfl

theorem wellFormed_token_id (st : Model) (token : CStr) (id : Nat) (st1 : Model)
    (hw : WellFormed st) (h : token_id st token = some (id, st1)) : WellFormed st1 := by
  rcases token_id_some st token id st1 h with ⟨_, _, hst⟩ | ⟨hm, hlt, _, hst⟩
  · subst hst; exact hw
  · subst hst
    refine ⟨?_, ?_, ?_, ?_, ?_⟩
    · exact List.Nodup.append hw.nodup (List.nodup_singleton _) (by simpa using hm)
    · intro i x hx
      by_cases hi : i = st.tokens.length
      · subst hi; simp at hx
      · simp only [Function.update_noteq hi] at hx
        exact List.mem_append_left _ (hw.succs_mem i x hx)
    · simpa using hlt
    · intro i
      by_cases hi : i = st.tokens.length
      · subst hi; simp
      · simp only [Function.update_noteq hi]; exact hw.succs_le i
    · intro i hi
      have hi1 : st.tokens.length + 1 ≤ i := by simpa using hi
      have hne : i ≠ st.tokens.length := by omega
      simp only [Function.update_noteq hne]
      exact hw.succs_nil i (by omega)

theorem wellFormed_append_to_succs (st : Model) (token succ : CStr) (st3 : Model)
    (hw : WellFormed st) (h : append_to_succs st token succ = some st3) : WellFormed st3 := by
  obtain ⟨id, st1, succ_id, st2, h1, h2, h3⟩ := append_to_succs_some st token succ st3 h
  have hw1 := wellFormed_token_id st token id st1 hw h1
  have hw2 := wellFormed_token_id st1 succ succ_id st2 hw1 h2
  obtain ⟨_, hid, _, _⟩ := token_id_tokens st token id st1 h1
  obtain ⟨⟨l, hl⟩, hsid, hget, _⟩ := token_id_tokens st1 succ succ_id st2 h2
  by_cases hlt : (st2.succs id).length < MAX_SUCCESSOR_COUNT
  · rw [if_pos hlt] at h3
    subst h3
    have hid2 : id < st2.tokens.length := by rw [hl, List.length_append]; omega
    refine ⟨hw2.nodup, ?_, hw2.tokens_le, ?_, ?_⟩
    · intro i x hx
      by_cases hi : i = id
      · subst hi
        simp only [Function.update_same, List.mem_append, List.mem_singleton] at hx
        rcases hx with hx | hx
        · exact hw2.succs_mem _ x hx
        · rw [hx, List.getD_eq_getElem?_getD, List.getElem?_eq_getElem hsid]
          exact List.getElem_mem _
      · simp only [Function.update_noteq hi] at hx
        exact hw2.succs_mem i x hx
    · intro i
      by_cases hi : i = id
      · subst hi; simp only [Function.update_same, List.length_append, List.length_singleton]
        omega
      · simp only [Function.update_noteq hi]; exact hw2.succs_le i
    · intro i hi
      have hne : i ≠ id := by
        intro e; subst e; exact absurd hid2 (Nat.not_lt.mpr hi)
      simp only [Function.update_noteq hne]
      exact hw2.succs_nil i hi
  · rw [if_neg hlt] at h3
    subst h3; exact hw2

theorem wellFormed_step {st st1 : Model} (hw : WellFormed st) (h : Step st st1) :
    WellFormed st1 := by
  cases h with
  | token_id token id _ h => exact wellFormed_token_id st token id st1 hw h
  | append_to_succs token succ _ h => exact wellFormed_append_to_succs st token succ st1 hw h

theorem wellFormed_reach {st st1 : Model} (hw : WellFormed st) (h : Reach st st1) :
    WellFormed st1 := by
  induction h with
  | refl => exact hw
  | tail _ hs ih => exact wellFormed_step ih hs

theorem append_to_succs_tokens (st : Model) (token succ : CStr) (st3 : Model)
    (h : append_to_succs st token succ = some st3) : ∃ l, st3.tokens = st.tokens ++ l := by
  obtain ⟨id, st1, succ_id, st2, h1, h2, h3⟩ := append_to_succs_some st token succ st3 h
  obtain ⟨⟨l1, hl1⟩, _⟩ := token_id_tokens st token id st1 h1
  obtain ⟨⟨l2, hl2⟩, _⟩ := token_id_tokens st1 succ succ_id st2 h2
  refine ⟨l1 ++ l2, ?_⟩
  have : st3.tokens = st2.tokens := by
    rw [h3]; split <;> rfl
  rw [this, hl2, hl1, List.append_assoc]

/-- The registry only grows, at its end. -/
theorem reach_tokens {st st1 : Model} (h : Reach st st1) :
    ∃ l, st1.tokens = st.tokens ++ l := by
  induction h with
  | refl => exact ⟨[], by simp⟩
  | tail _ hs ih =>
    obtain ⟨l, hl⟩ := ih
    cases hs with
    | token_id token id _ h =>
      obtain ⟨⟨l1, hl1⟩, _⟩ := token_id_tokens _ token id _ h
      exact ⟨l ++ l1, by rw [hl1, hl, List.append_assoc]⟩
    | append_to_succs token succ _ h =>
      obtain ⟨l1, hl1⟩ := append_to_succs_tokens _ token succ _ h
      exact ⟨l ++ l1, by rw [hl1, hl, List.append_assoc]⟩

theorem first_index_append_of_not_mem {a : CStr} {l : List CStr} (m : List CStr)
    (h : a ∉ l) : first_index a (l ++ m) = l.length + first_index a m := by
  induction l with
  | nil => simp
  | cons x xs ih =>
    have hx : ¬ x = a := fun e => h (by simp [e])
    have : a ∉ xs := fun e => h (List.mem_cons_of_mem _ e)
    simp [first_index, hx, ih this]; omega

theorem first_index_of_nodup {l : List CStr} (hn : l.Nodup) {i : Nat} {a : CStr}
    (h : l[i]? = some a) : first_index a l = i := by
  induction l generalizing i with
  | nil => simp at h
  | cons x xs ih =>
    cases i with
    | zero =>
      have : x = a := by simpa using h
      simp [first_index, this]
    | succ i =>
      have hx : xs[i]? = some a := by simpa using h
      have hmem : a ∈ xs := List.getElem?_mem hx
      have hne : ¬ x = a := fun e => (List.nodup_cons.mp hn).1 (e ▸ hmem)
      simp [first_index, hne, ih (List.nodup_cons.mp hn).2 hx]

/-- The id returned by `token_id` is the position of the first registry entry
equal to the token, in the registry after the call. -/
theorem token_id_first_index (st : Model) (token : CStr) (id : Nat) (st1 : Model)
    (h : token_id st token = some (id, st1)) : id = first_index token st1.tokens := by
  rcases token_id_some st token id st1 h with ⟨_, hid, hst⟩ | ⟨hm, _, hid, hst⟩
  · subst hst; exact hid
  · subst hst; subst hid
    simp [first_index_append_of_not_mem _ hm, first_index]

/-! ## Interning uniqueness -/

/-- C3. Interning uniqueness.  In every state (in particular in every state
reachable from the empty registry), a call `token_id(s)` that returns id `i`
leaves `tokens[i]` equal to `s`; in every state reached afterwards by further
`token_id` / `append_to_succs` calls, `token_id(s)` returns the same `i` and
leaves the registry and the successor table unchanged, and every string
different from `s` receives an id different from `i`. -/
theorem token_id_interning_unique (st : Model) (s : CStr) (i : Nat) (st1 : Model)
    (h : token_id st s = some (i, st1)) :
    st1.tokens[i]? = some s ∧
    ∀ st2, Reach st1 st2 →
      token_id st2 s = some (i, st2) ∧
      ∀ s1 j st3, s1 ≠ s → token_id st2 s1 = some (j, st3) → j ≠ i := by
  obtain ⟨_, hi, hget, hmem⟩ := token_id_tokens st s i st1 h
  have hfi := token_id_first_index st s i st1 h
  refine ⟨hget, ?_⟩
  intro st2 hr
  obtain ⟨l, hl⟩ := reach_tokens hr
  have hmem2 : s ∈ st2.tokens := by rw [hl]; exact List.mem_append_left _ hmem
  have hfi2 : first_index s st2.tokens = i := by
    rw [hl, first_index_append_of_mem _ hmem, ← hfi]
  refine ⟨by rw [token_id_of_mem st2 s hmem2, hfi2], ?_⟩
  intro s1 j st3 hne hj hji
  obtain ⟨⟨l3, hl3⟩, _, hget3, _⟩ := token_id_tokens st2 s1 j st3 hj
  subst hji
  have hi2 : j < st2.tokens.length := by rw [hl, List.length_append]; omega
  have h2 : st2.tokens[j]? = some s := by
    rw [hl, List.getElem?_append_left hi]; exact hget
  have h3 : st3.tokens[j]? = some s := by
    rw [hl3, List.getElem?_append_left hi2]; exact h2
  rw [h3] at hget3
  exact hne (Option.some.inj hget3).symm

/-- C3, at the first token of the example corpus: "Victor" gets id 0. -/
theorem token_id_interning_unique_witness :
    token_id Model.empty "Victor".toList
        = some (0, ⟨["Victor".toList], Function.update (fun _ => []) 0 []⟩) ∧
    ((["Victor".toList] : List CStr)[0]? = some "Victor".toList ∧
    ∀ st2, Reach ⟨["Victor".toList], Function.update (fun _ => []) 0 []⟩ st2 →
      token_id st2 "Victor".toList = some (0, st2) ∧
      ∀ s1 j st3, s1 ≠ "Victor".toList → token_id st2 s1 = some (j, st3) → j ≠ 0) :=
  ⟨rfl, token_id_interning_unique Model.empty "Victor".toList 0
    ⟨["Victor".toList], Function.update (fun _ => []) 0 []⟩ rfl⟩

/-! ## Model well-formedness -/

/-- A full successor row stays as it is: `append_to_succs` on a registered
token whose row is full changes no successor row, and fails only through the
registry-capacity exit of `token_id(succ)`. -/
theorem append_to_succs_full (st : Model) (hw : WellFormed st) (token succ : CStr) (id : Nat)
    (hid : st.tokens[id]? = some token)
    (hfull : (st.succs id).length = MAX_SUCCESSOR_COUNT) :
    (succ ∈ st.tokens → append_to_succs st token succ = some st) ∧
    (∀ st1, append_to_succs st token succ = some st1 → st1.succs = st.succs) ∧
    (append_to_succs st token succ = none ↔
      succ ∉ st.tokens ∧ MAX_WORD_COUNT ≤ st.tokens.length) := by
  have hmem : token ∈ st.tokens := List.getElem?_mem hid
  have hfi : first_index token st.tokens = id := first_index_of_nodup hw.nodup hid
  have h1 : token_id st token = some (id, st) := by rw [token_id_of_mem st token hmem, hfi]
  have key : ∀ st1, append_to_succs st token succ = some st1 → st1.succs = st.succs := by
    intro st1 h
    obtain ⟨id1, sta, succ_id, stb, ha, hb, hc⟩ := append_to_succs_some st token succ st1 h
    rw [h1] at ha
    simp only [Option.some.injEq, Prod.mk.injEq] at ha
    obtain ⟨e1, e2⟩ := ha
    subst e1; subst e2
    have hsuccs : stb.succs = st.succs := by
      rcases token_id_some st succ succ_id stb hb with ⟨_, _, e⟩ | ⟨_, _, _, e⟩
      · rw [e]
      · rw [e]
        funext k
        by_cases hk : k = st.tokens.length
        · subst hk; simp [hw.succs_nil _ (Nat.le_refl _)]
        · simp [Function.update_noteq hk]
    have hnot : ¬ (stb.succs id).length < MAX_SUCCESSOR_COUNT := by
      rw [hsuccs, hfull]; exact Nat.lt_irrefl _
    rw [if_neg hnot] at hc
    rw [hc, hsuccs]
  refine ⟨?_, key, ?_⟩
  · intro hs
    have h2 : token_id st succ = some (first_index succ st.tokens, st) :=
      token_id_of_mem st succ hs
    have hnot : ¬ (st.succs id).length < MAX_SUCCESSOR_COUNT := by
      rw [hfull]; exact Nat.lt_irrefl _
    simp [append_to_succs, h1, h2, hnot]
  · constructor
    · intro hnone
      cases h2 : token_id st succ with
      | none => exact (token_id_eq_none st succ).mp h2
      | some r =>
        exfalso
        simp only [append_to_succs, h1, h2] at hnone
        split at hnone <;> cases hnone
    · intro hcap
      have h2 := (token_id_eq_none st succ).mpr hcap
      simp [append_to_succs, h1, h2]

/-- C8 (amended). Model well-formedness is an invariant of every state
reachable from the empty model by non-fatal `token_id` and `append_to_succs`
calls: (1) the registry has no duplicate, (2) every successor entry is a
registered token, (3) `tokens_size ≤ MAX_WORD_COUNT` and every
`succs_sizes[i] ≤ MAX_SUCCESSOR_COUNT`; an append to a full successor row of a
registered token changes no successor row whenever it returns, is not an error
when the successor is registered, and is an error exactly when the successor
is not registered and the registry is full (the registry-capacity exit of
`token_id(succ)`, which is called before the row is tested). -/
theorem wellFormed_invariant (st : Model) (hr : Reach Model.empty st) :
    st.tokens.Nodup ∧
    (∀ i, ∀ x ∈ st.succs i, x ∈ st.tokens) ∧
    st.tokens.length ≤ MAX_WORD_COUNT ∧
    (∀ i, (st.succs i).length ≤ MAX_SUCCESSOR_COUNT) ∧
    (∀ token succ id, st.tokens[id]? = some token →
      (st.succs id).length = MAX_SUCCESSOR_COUNT →
      (succ ∈ st.tokens → append_to_succs st token succ = some st) ∧
      (∀ st1, append_to_succs st token succ = some st1 → st1.succs = st.succs) ∧
      (append_to_succs st token succ = none ↔
        succ ∉ st.tokens ∧ MAX_WORD_COUNT ≤ st.tokens.length)) := by
  have hw := wellFormed_reach wellFormed_empty hr
  exact ⟨hw.nodup, hw.succs_mem, hw.tokens_le, hw.succs_le,
    fun token succ id hid hfull => append_to_succs_full st hw token succ id hid hfull⟩

/-! ## Tokenization against the prescribed model -/

theorem registry_of_snoc (p : List CStr) (t : CStr) :
    registry_of (p ++ [t]) = if t ∈ registry_of p then registry_of p else registry_of p ++ [t] := by
  simp [registry_of, List.foldl_append]

theorem mem_registry_of (p : List CStr) : ∀ x : CStr, x ∈ registry_of p ↔ x ∈ p := by
  induction p using List.reverseRecOn with
  | nil => simp [registry_of]
  | append_singleton p t ih =>
    intro x
    rw [registry_of_snoc]
    by_cases h : t ∈ registry_of p
    · rw [if_pos h, List.mem_append, List.mem_singleton, ih]
      constructor
      · exact Or.inl
      · rintro (h1 | h1)
        · exact h1
        · rw [h1]; exact (ih t).mp h
    · rw [if_neg h, List.mem_append, List.mem_append, ih]

theorem nodup_registry_of (p : List CStr) : (registry_of p).Nodup := by
  induction p using List.reverseRecOn with
  | nil => simp [registry_of]
  | append_singleton p t ih =>
    rw [registry_of_snoc]
    by_cases h : t ∈ registry_of p
    · rw [if_pos h]; exact ih
    · rw [if_neg h]
      exact List.Nodup.append ih (List.nodup_singleton _) (by simpa using h)

theorem registry_of_append (p q : List CStr) : ∃ l, registry_of (p ++ q) = registry_of p ++ l := by
  induction q using List.reverseRecOn with
  | nil => exact ⟨[], by simp⟩
  | append_singleton q t ih =>
    obtain ⟨l, hl⟩ := ih
    rw [← List.append_assoc, registry_of_snoc]
    by_cases h : t ∈ registry_of (p ++ q)
    · rw [if_pos h]; exact ⟨l, hl⟩
    · rw [if_neg h, hl]; exact ⟨l ++ [t], by simp⟩

theorem followers_cons_cons (A x y : CStr) (rest : List CStr) :
    followers A (x :: y :: rest) = (if x = A then [y] else []) ++ followers A (y :: rest) := by
  by_cases h : x = A <;> simp [followers, List.filter_cons, h]

theorem followers_snoc (A : CStr) (p : List CStr) (t : CStr) :
    followers A (p ++ [t]) = followers A p ++ (if p.getLast? = some A then [t] else []) := by
  induction p with
  | nil => simp [followers]
  | cons x q ih =>
    cases q with
    | nil =>
      have := followers_cons_cons A x t []
      simp only [List.cons_append, List.nil_append] at this ⊢
      rw [this]
      simp [followers]
    | cons y rest =>
      have h1 := followers_cons_cons A x y (rest ++ [t])
      have h2 := followers_cons_cons A x y rest
      simp only [List.cons_append] at ih h1 ⊢
      rw [h1, ih, h2, List.append_assoc]
      simp [List.getLast?_cons_cons]

theorem followers_of_not_mem (A : CStr) (p : List CStr) (h : A ∉ p) : followers A p = [] := by
  induction p using List.reverseRecOn with
  | nil => simp [followers]
  | append_singleton p t ih =>
    have hp : A ∉ p := fun e => h (List.mem_append_left _ e)
    rw [followers_snoc, ih hp]
    have : p.getLast? ≠ some A := fun e => hp (List.mem_of_getLast?_eq_some e)
    simp [this]

theorem model_of_nil : model_of [] = Model.empty := by
  simp [model_of, registry_of, Model.empty]

theorem registry_of_getElem?_snoc (p : List CStr) (t : CStr) (i : Nat)
    (hi : i < (registry_of p).length) :
    (registry_of (p ++ [t]))[i]? = (registry_of p)[i]? := by
  obtain ⟨l, hl⟩ := registry_of_append p [t]
  rw [hl, List.getElem?_append_left hi]

/-- The successor rows prescribed for `p ++ [t]` in terms of those for `p`,
when `p` ends with `q`. -/
theorem model_of_snoc_succs (p : List CStr) (q t : CStr) (hq : p.getLast? = some q) (i : Nat) :
    (model_of (p ++ [t])).succs i =
      if (registry_of (p ++ [t]))[i]? = some q then
        (followers q p ++ [t]).take MAX_SUCCESSOR_COUNT
      else (model_of p).succs i := by
  simp only [model_of]
  by_cases hlt : i < (registry_of p).length
  · rw [registry_of_getElem?_snoc p t i hlt]
    cases hA : (registry_of p)[i]? with
    | none => simp
    | some A =>
      by_cases hAq : A = q
      · subst hAq; simp [followers_snoc, hq]
      · have : ¬ q = A := fun e => hAq e.symm
        simp [followers_snoc, hq, hAq, this]
  · have hnone : (registry_of p)[i]? = none := List.getElem?_eq_none (Nat.not_lt.mp hlt)
    have hqmem : q ∈ registry_of p :=
      (mem_registry_of p q).mpr (List.mem_of_getLast?_eq_some hq)
    cases hA : (registry_of (p ++ [t]))[i]? with
    | none => simp [hnone]
    | some A =>
      have hAp : A ∉ registry_of p := by
        intro hmem
        have h1 := first_index_lt hmem
        have h2 : first_index A (registry_of (p ++ [t])) = i :=
          first_index_of_nodup (nodup_registry_of _) hA
        obtain ⟨l, hl⟩ := registry_of_append p [t]
        rw [hl, first_index_append_of_mem _ hmem] at h2
        omega
      have hAq : ¬ A = q := fun e => hAp (e ▸ hqmem)
      have hfol : followers A p = [] :=
        followers_of_not_mem A p (fun e => hAp ((mem_registry_of p A).mpr e))
      have : ¬ q = A := fun e => hAq e.symm
      simp [hnone, hAq, followers_snoc, hq, hfol, this]

theorem token_id_model_of (p : List CStr) (t : CStr)
    (h : (registry_of (p ++ [t])).length ≤ MAX_WORD_COUNT) :
    token_id (model_of p) t = some (first_index t (registry_of (p ++ [t])),
      ⟨registry_of (p ++ [t]), (model_of p).succs⟩) := by
  by_cases hm : t ∈ registry_of p
  · have hm1 : t ∈ (model_of p).tokens := hm
    rw [token_id_of_mem _ t hm1, registry_of_snoc, if_pos hm]
    rfl
  · have hm1 : t ∉ (model_of p).tokens := hm
    rw [registry_of_snoc, if_neg hm] at h ⊢
    have hlt : (model_of p).tokens.length < MAX_WORD_COUNT := by
      have : (registry_of p).length + 1 ≤ MAX_WORD_COUNT := by simpa using h
      exact this
    rw [token_id_of_not_mem _ t hm1 hlt, first_index_append_of_not_mem _ hm]
    have hrow : (model_of p).succs (registry_of p).length = [] := by
      simp [model_of]
    have hupd : Function.update (model_of p).succs (model_of p).tokens.length []
        = (model_of p).succs := by
      funext k
      by_cases hk : k = (model_of p).tokens.length
      · subst hk; simpa using hrow.symm
      · simp [Function.update_noteq hk]
    rw [hupd]
    simp [first_index, model_of]

theorem append_to_succs_model_of (p : List CStr) (q t : CStr) (hq : p.getLast? = some q) :
    append_to_succs ⟨registry_of (p ++ [t]), (model_of p).succs⟩ q t
      = some (model_of (p ++ [t])) := by
  have hqp : q ∈ p := List.mem_of_getLast?_eq_some hq
  have hqR : q ∈ registry_of p := (mem_registry_of p q).mpr hqp
  have hqR1 : q ∈ registry_of (p ++ [t]) :=
    (mem_registry_of _ q).mpr (List.mem_append_left _ hqp)
  have htR1 : t ∈ registry_of (p ++ [t]) := (mem_registry_of _ t).mpr (by simp)
  have h1 := token_id_of_mem ⟨registry_of (p ++ [t]), (model_of p).succs⟩ q hqR1
  have h2 := token_id_of_mem ⟨registry_of (p ++ [t]), (model_of p).succs⟩ t htR1
  have hiq : first_index q (registry_of (p ++ [t])) = first_index q (registry_of p) := by
    obtain ⟨l, hl⟩ := registry_of_append p [t]
    rw [hl, first_index_append_of_mem _ hqR]
  have hrow : (model_of p).succs (first_index q (registry_of (p ++ [t])))
      = (followers q p).take MAX_SUCCESSOR_COUNT := by
    rw [hiq]; simp [model_of, first_index_get? hqR]
  have hgetD : (registry_of (p ++ [t])).getD (first_index t (registry_of (p ++ [t]))) [] = t := by
    rw [List.getD_eq_getElem?_getD, first_index_get? htR1]; rfl
  have hidx : ∀ i, (registry_of (p ++ [t]))[i]? = some q
      ↔ i = first_index q (registry_of (p ++ [t])) := by
    intro i
    constructor
    · intro h; exact (first_index_of_nodup (nodup_registry_of _) h).symm
    · intro h; rw [h]; exact first_index_get? hqR1
  simp only [append_to_succs, h1, h2, hrow, hgetD]
  by_cases hlt : (followers q p).length < MAX_SUCCESSOR_COUNT
  · have hlen : ((followers q p).take MAX_SUCCESSOR_COUNT).length < MAX_SUCCESSOR_COUNT := by
      rw [List.length_take]; omega
    rw [if_pos hlen]
    congr 1
    show Model.mk _ _ = Model.mk _ _
    congr 1
    funext i
    show Function.update (model_of p).succs (first_index q (registry_of (p ++ [t])))
      (List.take MAX_SUCCESSOR_COUNT (followers q p) ++ [t]) i = (model_of (p ++ [t])).succs i
    rw [model_of_snoc_succs p q t hq i]
    by_cases hi : i = first_index q (registry_of (p ++ [t]))
    · rw [if_pos ((hidx i).mpr hi), hi, Function.update_same]
      rw [List.take_of_length_le (Nat.le_of_lt hlt), List.take_of_length_le]
      simp; omega
    · rw [if_neg (fun e => hi ((hidx i).mp e)), Function.update_noteq hi]
  · have hlen : ¬ ((followers q p).take MAX_SUCCESSOR_COUNT).length < MAX_SUCCESSOR_COUNT := by
      rw [List.length_take]; omega
    rw [if_neg hlen]
    congr 1
    show Model.mk _ _ = Model.mk _ _
    congr 1
    funext i
    show (model_of p).succs i = (model_of (p ++ [t])).succs i
    rw [model_of_snoc_succs p q t hq i]
    by_cases hi : i = first_index q (registry_of (p ++ [t]))
    · rw [if_pos ((hidx i).mpr hi), hi, hrow]
      rw [List.take_append_of_le_length (Nat.not_lt.mp hlt)]
    · rw [if_neg (fun e => hi ((hidx i).mp e))]

theorem registry_of_length_mono (p q : List CStr) :
    (registry_of p).length ≤ (registry_of (p ++ q)).length := by
  obtain ⟨l, hl⟩ := registry_of_append p q
  rw [hl, List.length_append]; omega

theorem model_of_singleton (t : CStr) :
    (⟨registry_of ([] ++ [t]), (model_of []).succs⟩ : Model) = model_of ([] ++ [t]) := by
  show Model.mk _ _ = Model.mk _ _
  congr 1
  funext i
  cases i with
  | zero => simp [model_of, registry_of, followers]
  | succ i => simp [model_of, registry_of]

/-- One iteration of the `while (token)` loop on the prescribed model. -/
theorem tokenize_loop_cons (p : List CStr) (t : CStr) (rest : List CStr)
    (h : (registry_of (p ++ [t])).length ≤ MAX_WORD_COUNT) :
    tokenize_loop (model_of p) p.getLast? (t :: rest)
      = tokenize_loop (model_of (p ++ [t])) (p ++ [t]).getLast? rest := by
  rw [List.getLast?_concat]
  cases hq : p.getLast? with
  | none =>
    have hp : p = [] := List.getLast?_eq_none_iff.mp hq
    subst hp
    simp only [tokenize_loop, token_id_model_of [] t h, model_of_singleton]
  | some q =>
    simp only [tokenize_loop, token_id_model_of p t h, append_to_succs_model_of p q t hq]

theorem tokenize_loop_model_of (rest : List CStr) : ∀ p : List CStr,
    (registry_of (p ++ rest)).length ≤ MAX_WORD_COUNT →
    tokenize_loop (model_of p) p.getLast? rest = some (model_of (p ++ rest)) := by
  induction rest with
  | nil => intro p _; simp [tokenize_loop]
  | cons t rest ih =>
    intro p h
    have e : p ++ t :: rest = (p ++ [t]) ++ rest := by simp
    have h1 : (registry_of (p ++ [t])).length ≤ MAX_WORD_COUNT := by
      have := registry_of_length_mono (p ++ [t]) rest
      rw [← e] at this; omega
    rw [tokenize_loop_cons p t rest h1, e]
    exact ih (p ++ [t]) (e ▸ h)

theorem tokenize_loop_fatal (rest : List CStr) : ∀ p : List CStr,
    (registry_of p).length ≤ MAX_WORD_COUNT →
    MAX_WORD_COUNT < (registry_of (p ++ rest)).length →
    tokenize_loop (model_of p) p.getLast? rest = none := by
  induction rest with
  | nil => intro p h1 h2; simp at h2; omega
  | cons t rest ih =>
    intro p h1 h2
    have e : p ++ t :: rest = (p ++ [t]) ++ rest := by simp
    by_cases h : (registry_of (p ++ [t])).length ≤ MAX_WORD_COUNT
    · rw [tokenize_loop_cons p t rest h]
      exact ih (p ++ [t]) h (e ▸ h2)
    · have hm : t ∉ registry_of p := by
        intro hm; rw [registry_of_snoc, if_pos hm] at h; exact h h1
      rw [registry_of_snoc, if_neg hm, List.length_append, List.length_singleton] at h
      have hnone : token_id (model_of p) t = none :=
        (token_id_eq_none _ t).mpr ⟨hm, by show MAX_WORD_COUNT ≤ (registry_of p).length; omega⟩
      simp [tokenize_loop, hnone]

/-- Tokenization from the empty model builds the prescribed model, or exits
when the sequence has more than `MAX_WORD_COUNT` distinct tokens. -/
theorem tokenize_loop_eq (ts : List CStr) :
    tokenize_loop Model.empty none ts =
      if (registry_of ts).length ≤ MAX_WORD_COUNT then some (model_of ts) else none := by
  have h0 : tokenize_loop Model.empty none ts
      = tokenize_loop (model_of []) ([] : List CStr).getLast? ts := by
    rw [model_of_nil]; rfl
  rw [h0]
  split
  · rename_i h
    exact tokenize_loop_model_of ts [] (by simpa using h)
  · rename_i h
    exact tokenize_loop_fatal ts [] (by simp [registry_of]) (by simpa using h)

theorem registry_of_length (ts : List CStr) : (registry_of ts).length = ts.toFinset.card := by
  rw [← List.toFinset_card_of_nodup (nodup_registry_of ts)]
  congr 1
  ext x
  simp [mem_registry_of]

theorem first_index_split {a : CStr} {ts : List CStr} (h : a ∈ ts) :
    ∃ p r, ts = p ++ a :: r ∧ a ∉ p ∧ first_index a ts = p.length := by
  induction ts with
  | nil => simp at h
  | cons x xs ih =>
    by_cases hx : x = a
    · exact ⟨[], xs, by simp [hx], by simp, by simp [first_index, hx]⟩
    · have : a ∈ xs := by
        rcases List.mem_cons.mp h with h1 | h1
        · exact absurd h1.symm hx
        · exact h1
      obtain ⟨p, r, h1, h2, h3⟩ := ih this
      refine ⟨x :: p, r, by simp [h1], ?_, by simp [first_index, hx, h3]⟩
      simp only [List.mem_cons, not_or]
      exact ⟨fun e => hx e.symm, h2⟩

/-- The id of a token is the number of distinct tokens that first occur before it. -/
theorem first_index_registry_of {a : CStr} {ts : List CStr} (h : a ∈ ts) :
    first_index a (registry_of ts)
      = (registry_of (ts.take (first_index a ts))).length := by
  obtain ⟨p, r, h1, h2, h3⟩ := first_index_split h
  have htake : ts.take (first_index a ts) = p := by
    rw [h3, h1]; exact List.take_left' rfl
  rw [htake]
  have e : ts = (p ++ [a]) ++ r := by rw [h1]; simp
  obtain ⟨l, hl⟩ := registry_of_append (p ++ [a]) r
  have hp : a ∉ registry_of p := fun e => h2 ((mem_registry_of p a).mp e)
  rw [e, hl, registry_of_snoc, if_neg hp, List.append_assoc,
    first_index_append_of_not_mem _ hp]
  simp [first_index]

theorem followers_append (A : CStr) (p q : List CStr) :
    ∃ l, followers A (p ++ q) = followers A p ++ l := by
  induction q using List.reverseRecOn with
  | nil => exact ⟨[], by simp⟩
  | append_singleton q t ih =>
    obtain ⟨l, hl⟩ := ih
    rw [← List.append_assoc, followers_snoc, hl]
    exact ⟨l ++ _, by rw [List.append_assoc]⟩

/-- An adjacent pair met while the row of its first token is not full is recorded. -/
theorem mem_take_followers (ts : List CStr) (i : Nat) (hi0 : i < ts.length)
    (hi : i + 1 < ts.length)
    (hlt : (followers ts[i] (ts.take (i + 1))).length < MAX_SUCCESSOR_COUNT) :
    ts[i + 1] ∈ (followers ts[i] ts).take MAX_SUCCESSOR_COUNT := by
  have h1 : ts.take (i + 1) = ts.take i ++ [ts[i]] := by
    rw [List.take_succ, List.getElem?_eq_getElem hi0]; rfl
  have h2 : ts.take (i + 2) = ts.take (i + 1) ++ [ts[i + 1]] := by
    rw [List.take_succ, List.getElem?_eq_getElem hi]; rfl
  have hlast : (ts.take (i + 1)).getLast? = some ts[i] := by
    rw [h1, List.getLast?_concat]
  have h3 : followers ts[i] (ts.take (i + 2))
      = followers ts[i] (ts.take (i + 1)) ++ [ts[i + 1]] := by
    rw [h2, followers_snoc, if_pos hlast]
  obtain ⟨l, hl⟩ := followers_append ts[i] (ts.take (i + 2)) (ts.drop (i + 2))
  rw [List.take_append_drop, h3] at hl
  rw [hl, List.take_append_eq_append_take, List.take_of_length_le (by simp; omega)]
  simp

/-! ## Tokenization: the claims -/

/-- C1. For every token sequence with at most `MAX_WORD_COUNT` distinct tokens,
`tokenize_and_fill_succs` from the empty model returns, and the successor row
of every token `A` of the sequence is exactly `[t_{i+1} | t_i = A]` in
increasing order of `i`, truncated to its first `MAX_SUCCESSOR_COUNT` entries;
rows of unused ids are empty.  In particular, for every adjacent pair
`(t_i, t_{i+1})`, `t_{i+1}` is in the row of `t_i` unless that row was already
full when the pair was met. -/
theorem successor_rows_exact (ts : List CStr) (h : ts.toFinset.card ≤ MAX_WORD_COUNT) :
    ∃ st, tokenize_loop Model.empty none ts = some st ∧
      (∀ A ∈ ts, ∃ id, st.tokens[id]? = some A ∧ token_id st A = some (id, st) ∧
        st.succs id = (followers A ts).take MAX_SUCCESSOR_COUNT) ∧
      (∀ id, st.tokens.length ≤ id → st.succs id = []) ∧
      (∀ i id, ∀ hi0 : i < ts.length, ∀ hi : i + 1 < ts.length,
        st.tokens[id]? = some ts[i] →
        (followers ts[i] (ts.take (i + 1))).length < MAX_SUCCESSOR_COUNT →
        ts[i + 1] ∈ st.succs id) := by
  have hlen : (registry_of ts).length ≤ MAX_WORD_COUNT := by
    rw [registry_of_length]; exact h
  refine ⟨model_of ts, by rw [tokenize_loop_eq, if_pos hlen], ?_, ?_, ?_⟩
  · intro A hA
    have hm : A ∈ (model_of ts).tokens := (mem_registry_of ts A).mpr hA
    refine ⟨first_index A (registry_of ts), first_index_get? hm,
      token_id_of_mem _ A hm, ?_⟩
    have : (registry_of ts)[first_index A (registry_of ts)]? = some A := first_index_get? hm
    simp [model_of, this]
  · intro id hid
    have : (registry_of ts)[id]? = none := List.getElem?_eq_none hid
    simp [model_of, this]
  · intro i id hi0 hi hid hlt
    have hid1 : (registry_of ts)[id]? = some ts[i] := hid
    have : (model_of ts).succs id = (followers ts[i] ts).take MAX_SUCCESSOR_COUNT := by
      simp [model_of, hid1]
    rw [this]
    exact mem_take_followers ts i hi0 hi hlt

/-- C5. After tokenization from the empty registry of a sequence with at most
`MAX_WORD_COUNT` distinct tokens, the registry is the list of the distinct
tokens of the sequence in order of first occurrence: it has no duplicate, its
members are the tokens of the sequence, the id of a token is the number of
distinct tokens that first occur before it, a token seen again gets that same
id back without any change, and the registry built from any prefix of the
sequence is a prefix of the final one (earlier ids never change). -/
theorem registry_first_occurrence_order (ts : List CStr)
    (h : ts.toFinset.card ≤ MAX_WORD_COUNT) :
    ∃ st, tokenize_loop Model.empty none ts = some st ∧
      st.tokens = registry_of ts ∧
      st.tokens.Nodup ∧ (∀ x, x ∈ st.tokens ↔ x ∈ ts) ∧
      st.tokens.length = ts.toFinset.card ∧
      (∀ i a, st.tokens[i]? = some a →
        i = (ts.take (first_index a ts)).toFinset.card) ∧
      (∀ (i j : Nat) (a b : CStr), st.tokens[i]? = some a → st.tokens[j]? = some b → i < j →
        first_index a ts < first_index b ts) ∧
      (∀ a ∈ ts, token_id st a = some ((ts.take (first_index a ts)).toFinset.card, st)) ∧
      (∀ k, ∃ stk, tokenize_loop Model.empty none (ts.take k) = some stk ∧
        ∃ l, st.tokens = stk.tokens ++ l) := by
  have hlen : (registry_of ts).length ≤ MAX_WORD_COUNT := by
    rw [registry_of_length]; exact h
  have hidx : ∀ i a, (registry_of ts)[i]? = some a →
      i = (ts.take (first_index a ts)).toFinset.card := by
    intro i a hia
    have ha : a ∈ ts := (mem_registry_of ts a).mp (List.getElem?_mem hia)
    rw [← registry_of_length, ← first_index_registry_of ha]
    exact (first_index_of_nodup (nodup_registry_of ts) hia).symm
  refine ⟨model_of ts, by rw [tokenize_loop_eq, if_pos hlen], rfl, nodup_registry_of ts,
    mem_registry_of ts, registry_of_length ts, hidx, ?_, ?_, ?_⟩
  · intro i j a b hia hjb hij
    by_contra hnot
    have hle : first_index b ts ≤ first_index a ts := Nat.not_lt.mp hnot
    have hi := hidx i a hia
    have hj := hidx j b hjb
    rw [← registry_of_length] at hi hj
    have hpre : ts.take (first_index a ts)
        = ts.take (first_index b ts) ++ (ts.take (first_index a ts)).drop (first_index b ts) := by
      have := List.take_append_drop (first_index b ts) (ts.take (first_index a ts))
      rw [List.take_take, Nat.min_eq_left hle] at this
      exact this.symm
    have := registry_of_length_mono (ts.take (first_index b ts))
      ((ts.take (first_index a ts)).drop (first_index b ts))
    rw [← hpre] at this
    omega
  · intro a ha
    have hm : a ∈ (model_of ts).tokens := (mem_registry_of ts a).mpr ha
    rw [token_id_of_mem _ a hm]
    have : first_index a (model_of ts).tokens = (ts.take (first_index a ts)).toFinset.card :=
      hidx _ a (first_index_get? hm)
    rw [this]
  · intro k
    have hk : (registry_of (ts.take k)).length ≤ MAX_WORD_COUNT := by
      have := registry_of_length_mono (ts.take k) (ts.drop k)
      rw [List.take_append_drop] at this
      omega
    refine ⟨model_of (ts.take k), by rw [tokenize_loop_eq, if_pos hk], ?_⟩
    obtain ⟨l, hl⟩ := registry_of_append (ts.take k) (ts.drop k)
    rw [List.take_append_drop] at hl
    exact ⟨l, hl⟩

/-- C7. Starting from the empty registry, tokenization ends in the fatal
registry-capacity exit if and only if the token sequence has more than
`MAX_WORD_COUNT` distinct tokens; `token_id` fails exactly when its argument
is not registered and `tokens_size ≥ MAX_WORD_COUNT`, and the lookup of a
registered token succeeds whatever the size of the registry. -/
theorem registry_capacity_fatal_iff (ts : List CStr) (delimiters : CStr) (str : List Char) :
    (tokenize_loop Model.empty none ts = none ↔ MAX_WORD_COUNT < ts.toFinset.card) ∧
    (tokenize_and_fill_succs Model.empty delimiters str = none ↔
      MAX_WORD_COUNT < (strtok_all delimiters (str.length + 1) str).toFinset.card) ∧
    (∀ st token, token_id st token = none ↔
      token ∉ st.tokens ∧ MAX_WORD_COUNT ≤ st.tokens.length) ∧
    (∀ st token, token ∈ st.tokens → ∃ id, token_id st token = some (id, st)) := by
  have key : ∀ l : List CStr,
      tokenize_loop Model.empty none l = none ↔ MAX_WORD_COUNT < l.toFinset.card := by
    intro l
    rw [tokenize_loop_eq, ← registry_of_length]
    split
    · rename_i hle
      simp only [reduceCtorEq, false_iff, Nat.not_lt]; exact hle
    · rename_i hle
      simp only [true_iff]; exact Nat.not_le.mp hle
  exact ⟨key ts, key _, token_id_eq_none, fun st token hm => ⟨_, token_id_of_mem st token hm⟩⟩

theorem reach_tokenize_loop (ts : List CStr) : ∀ (st : Model) (prev : Option CStr) (st1 : Model),
    tokenize_loop st prev ts = some st1 → Reach st st1 := by
  induction ts with
  | nil =>
    intro st prev st1 h
    simp only [tokenize_loop, Option.some.injEq] at h
    subst h; exact Relation.ReflTransGen.refl
  | cons t rest ih =>
    intro st prev st1 h
    unfold tokenize_loop at h
    cases h1 : token_id st t with
    | none => simp [h1] at h
    | some r =>
      obtain ⟨id, sta⟩ := r
      have s1 : Reach st sta := Relation.ReflTransGen.single (Step.token_id st t id sta h1)
      simp only [h1] at h
      cases prev with
      | none => exact Relation.ReflTransGen.trans s1 (ih sta (some t) st1 h)
      | some p =>
        simp only at h
        cases h2 : append_to_succs sta p t with
        | none => simp [h2] at h
        | some stb =>
          simp only [h2] at h
          have s2 : Reach sta stb :=
            Relation.ReflTransGen.single (Step.append_to_succs sta p t stb h2)
          exact Relation.ReflTransGen.trans s1 (Relation.ReflTransGen.trans s2 (ih stb (some t) st1 h))

theorem strtok_victor :
    strtok_all main_delimiters (victor_corpus.length + 1) victor_corpus = victor_tokens := by
  decide

theorem wellFormed_tokenize (delimiters : CStr) (str : List Char) (st : Model)
    (h : tokenize_and_fill_succs Model.empty delimiters str = some st) : WellFormed st :=
  wellFormed_reach wellFormed_empty (reach_tokenize_loop _ _ _ _ h)

/-- The model built from the example corpus. -/
theorem victor_model_rows (st : Model)
    (hst : tokenize_and_fill_succs Model.empty main_delimiters victor_corpus = some st) :
    st.tokens = victor_tokens ∧
      st.succs 0 = ["said".toList] ∧ st.succs 1 = ["hello.".toList] ∧
      st.succs 2 = ["Did".toList] ∧ st.succs 3 = ["she".toList] ∧
      st.succs 4 = ["answer?".toList] ∧ st.succs 5 = [] ∧
      ∀ i, 6 ≤ i → st.succs i = [] := by
  have hall : (tokenize_and_fill_succs Model.empty main_delimiters victor_corpus).map
      (fun m => (m.tokens, (List.range 6).map m.succs))
      = some (victor_tokens, [["said".toList], ["hello.".toList], ["Did".toList],
          ["she".toList], ["answer?".toList], []]) := by decide
  have hw := wellFormed_tokenize _ _ st hst
  rw [hst] at hall
  simp only [Option.map_some', Option.some.injEq, Prod.mk.injEq] at hall
  obtain ⟨htok, hrows⟩ := hall
  simp only [List.range, List.range.loop, List.map_cons, List.map_nil, List.cons.injEq,
    and_true] at hrows
  obtain ⟨r0, r1, r2, r3, r4, r5⟩ := hrows
  refine ⟨htok, r0, r1, r2, r3, r4, r5, ?_⟩
  intro i hi
  exact hw.succs_nil i (by rw [htok]; exact hi)

/-- C9. Tokenizing the corpus "Victor said hello. Did she answer?" on whitespace
from the empty model yields the registry `["Victor", "said", "hello.", "Did",
"she", "answer?"]` and exactly the successor table `"Victor"→["said"]`,
`"said"→["hello."]`, `"hello."→["Did"]`, `"Did"→["she"]`, `"she"→["answer?"]`,
`"answer?"→[]`; every other row is empty. -/
theorem victor_corpus_model :
    ∃ st, tokenize_and_fill_succs Model.empty main_delimiters victor_corpus = some st ∧
      st.tokens = ["Victor".toList, "said".toList, "hello.".toList, "Did".toList,
        "she".toList, "answer?".toList] ∧
      st.succs 0 = ["said".toList] ∧ st.succs 1 = ["hello.".toList] ∧
      st.succs 2 = ["Did".toList] ∧ st.succs 3 = ["she".toList] ∧
      st.succs 4 = ["answer?".toList] ∧ st.succs 5 = [] ∧
      ∀ i, 6 ≤ i → st.succs i = [] := by
  have hsome : (tokenize_and_fill_succs Model.empty main_delimiters victor_corpus).isSome = true := by
    decide
  obtain ⟨st, hst⟩ := Option.isSome_iff_exists.mp hsome
  exact ⟨st, hst, victor_model_rows st hst⟩

/-- A walk step on a token without successors returns the sentence as it is. -/
theorem walk_empty (C : Nat) (rnd : Nat → Nat) (fuel : Nat) (st : Model) (cur : Nat)
    (s : CStr) (pos : Nat) (h : (st.succs cur).length = 0) :
    walk C rnd (fuel + 1) st cur s pos = .done s st pos := by
  simp [walk, h]

/-- A walk step whose sampled successor does not fit returns without appending. -/
theorem walk_full (C : Nat) (rnd : Nat → Nat) (fuel : Nat) (st : Model) (cur : Nat)
    (s : CStr) (pos : Nat) (next : CStr) (h : (st.succs cur).length ≠ 0)
    (hn : (st.succs cur).getD (rnd pos % (st.succs cur).length) [] = next)
    (hfull : s.length + next.length + 2 ≥ size_pred C) :
    walk C rnd (fuel + 1) st cur s pos = .done s st (pos + 1) := by
  simp only [walk, h, if_false, hn, hfull, if_true]

/-- A walk step whose sampled successor fits and ends a sentence appends it and
returns. -/
theorem walk_terminator (C : Nat) (rnd : Nat → Nat) (fuel : Nat) (st : Model) (cur : Nat)
    (s : CStr) (pos : Nat) (next : CStr) (h : (st.succs cur).length ≠ 0)
    (hn : (st.succs cur).getD (rnd pos % (st.succs cur).length) [] = next)
    (hfit : s.length + next.length + 2 < size_pred C)
    (hend : token_ends_a_sentence next = true) :
    walk C rnd (fuel + 1) st cur s pos = .done (s ++ [' '] ++ next) st (pos + 1) := by
  have : ¬ (s.length + next.length + 2 ≥ size_pred C) := Nat.not_le.mpr hfit
  simp only [walk, h, if_false, hn, this, hend, if_true]

/-- A walk step whose sampled successor fits and does not end a sentence appends
it and goes on from the id that `token_id` returns. -/
theorem walk_continue (C : Nat) (rnd : Nat → Nat) (fuel : Nat) (st : Model) (cur : Nat)
    (s : CStr) (pos : Nat) (next : CStr) (id : Nat) (st1 : Model)
    (h : (st.succs cur).length ≠ 0)
    (hn : (st.succs cur).getD (rnd pos % (st.succs cur).length) [] = next)
    (hfit : s.length + next.length + 2 < size_pred C)
    (hend : token_ends_a_sentence next = false)
    (hid : token_id st next = some (id, st1)) :
    walk C rnd (fuel + 1) st cur s pos
      = walk C rnd fuel st1 id (s ++ [' '] ++ next) (pos + 1) := by
  have : ¬ (s.length + next.length + 2 ≥ size_pred C) := Nat.not_le.mpr hfit
  simp only [walk, h, if_false, hn, this, hend, hid, hfit, if_true, Bool.false_eq_true]

/-- A walk step exits when `token_id` of the appended successor does. -/
theorem walk_fatal (C : Nat) (rnd : Nat → Nat) (fuel : Nat) (st : Model) (cur : Nat)
    (s : CStr) (pos : Nat) (next : CStr)
    (h : (st.succs cur).length ≠ 0)
    (hn : (st.succs cur).getD (rnd pos % (st.succs cur).length) [] = next)
    (hfit : s.length + next.length + 2 < size_pred C)
    (hend : token_ends_a_sentence next = false)
    (hid : token_id st next = none) :
    walk C rnd (fuel + 1) st cur s pos = .fatal := by
  have : ¬ (s.length + next.length + 2 ≥ size_pred C) := Nat.not_le.mpr hfit
  simp only [walk, h, if_false, hn, this, hend, hid, Bool.false_eq_true]

theorem victor_walk (st : Model)
    (h : tokenize_and_fill_succs Model.empty main_delimiters victor_corpus = some st)
    (rnd : Nat → Nat) (fuel pos : Nat) (hf : 2 ≤ fuel) :
    generate_from st [] 1000 rnd fuel 0 pos
      = .done "Victor said hello.".toList st (pos + 2) := by
  obtain ⟨htok, r0, r1, -⟩ := victor_model_rows st h
  obtain ⟨f, rfl⟩ : ∃ f, fuel = f + 2 := ⟨fuel - 2, by omega⟩
  have hid : token_id st "said".toList = some (1, st) := by
    have hm : "said".toList ∈ st.tokens := by rw [htok]; decide
    rw [token_id_of_mem st _ hm, htok]
    rfl
  have t0 : st.tokens.getD 0 [] = "Victor".toList := by rw [htok]; rfl
  have e1 : token_ends_a_sentence "Victor".toList = false := by decide
  have n0 : (st.succs 0).getD (rnd pos % (st.succs 0).length) [] = "said".toList := by
    rw [r0]; simp [Nat.mod_one]
  have n1 : (st.succs 1).getD (rnd (pos + 1) % (st.succs 1).length) [] = "hello.".toList := by
    rw [r1]; simp [Nat.mod_one]
  have s1 := walk_continue 1000 rnd (f + 1) st 0 "Victor".toList pos "said".toList 1 st
    (by rw [r0]; decide) n0 (by decide) (by decide) hid
  have s2 := walk_terminator 1000 rnd f st 1 ("Victor".toList ++ [' '] ++ "said".toList)
    (pos + 1) "hello.".toList (by rw [r1]; decide) n1 (by decide) (by decide)
  unfold generate_from
  simp only [t0, e1, List.nil_append]
  rw [if_neg (by decide), s1, s2]
  rfl

theorem tokenize_victor :
    tokenize_and_fill_succs Model.empty main_delimiters victor_corpus
      = some (model_of victor_tokens) := by
  unfold tokenize_and_fill_succs
  rw [strtok_victor, tokenize_loop_eq, if_pos]
  rw [registry_of_length]
  exact le_trans (List.toFinset_card_le _) (by decide)

/-- C10. On the model built from the corpus "Victor said hello. Did she
answer?", with an initially empty buffer of capacity 1000, the registry entry
0 is "Victor" and, whenever the start token selected is "Victor", the walk is
the same for every sequence of random values: two iterations, which append
"said" and then "hello.", and the call returns exactly "Victor said hello."
with the model unchanged. -/
theorem victor_sentence_deterministic (st : Model)
    (h : tokenize_and_fill_succs Model.empty main_delimiters victor_corpus = some st)
    (rnd : Nat → Nat) (fuel pos : Nat) (hf : 2 ≤ fuel) :
    st.tokens[0]? = some "Victor".toList ∧
    generate_from st [] 1000 rnd fuel 0 pos
      = .done "Victor said hello.".toList st (pos + 2) ∧
    (random_token_id_that_starts_a_sentence st rnd fuel 0 = some (some (0, pos)) →
      generate_sentence st [] 1000 rnd fuel
        = .done "Victor said hello.".toList st (pos + 2)) := by
  have hw := victor_walk st h rnd fuel pos hf
  refine ⟨?_, hw, ?_⟩
  · rw [(victor_model_rows st h).1]; rfl
  · intro hs
    simp only [generate_sentence, hs, hw]

/-- C10 at the random stream that is constantly 0, which selects "Victor". -/
theorem victor_sentence_deterministic_witness :
    tokenize_and_fill_succs Model.empty main_delimiters victor_corpus
      = some (model_of victor_tokens) ∧ 2 ≤ 2 ∧
    generate_sentence (model_of victor_tokens) [] 1000 (fun _ => 0) 2
      = .done "Victor said hello.".toList (model_of victor_tokens) 3 :=
  ⟨tokenize_victor, Nat.le_refl 2,
    (victor_sentence_deterministic (model_of victor_tokens) tokenize_victor (fun _ => 0) 2 1
      (Nat.le_refl 2)).2.2 (by decide)⟩

/-- C2 (violated by the code). On the model built from the one-word corpus
"Hello", `generate_sentence` called with an empty buffer of capacity 3 returns,
for every sequence of random values, the 5-character string "Hello": the start
token is copied into the buffer without any length check. -/
theorem generate_sentence_exceeds_capacity :
    ∃ st, tokenize_and_fill_succs Model.empty main_delimiters "Hello".toList = some st ∧
      ∀ (rnd : Nat → Nat) (fuel : Nat), 0 < fuel →
        generate_sentence st [] 3 rnd fuel = .done "Hello".toList st 1 ∧
        ¬ ("Hello".toList.length < 3) := by
  have htok : strtok_all main_delimiters ("Hello".toList.length + 1) "Hello".toList
      = ["Hello".toList] := by decide
  have hst : tokenize_and_fill_succs Model.empty main_delimiters "Hello".toList
      = some (model_of ["Hello".toList]) := by
    unfold tokenize_and_fill_succs
    rw [htok, tokenize_loop_eq, if_pos]
    rw [registry_of_length]
    exact le_trans (List.toFinset_card_le _) (by decide)
  refine ⟨_, hst, ?_⟩
  intro rnd fuel hfuel
  obtain ⟨f, rfl⟩ : ∃ f, fuel = f + 1 := ⟨fuel - 1, by omega⟩
  have ht : (model_of ["Hello".toList]).tokens = ["Hello".toList] := by decide
  have hr : ((model_of ["Hello".toList]).succs 0).length = 0 := by decide
  have hstart : random_token_id_that_starts_a_sentence (model_of ["Hello".toList]) rnd (f + 1) 0
      = some (some (0, 1)) := by
    simp only [random_token_id_that_starts_a_sentence, ht, List.length_singleton, Nat.mod_one]
    rw [if_neg (by decide), if_pos (by decide)]
  refine ⟨?_, by decide⟩
  simp only [generate_sentence, hstart, generate_from, ht]
  rw [if_neg (by decide), walk_empty _ _ _ _ _ _ _ hr]
  rfl

/-! ## Preprocessing and `strtok_r` -/

theorem replace_length (book : List Char) :
    (replace_non_printable_chars_with_space book).length = book.length := by
  induction book with
  | nil => rfl
  | cons c cs ih =>
    by_cases h : c = NUL
    · simp [replace_non_printable_chars_with_space, h]
    · simp [replace_non_printable_chars_with_space, h, ih]

theorem replace_printable (book : List Char) :
    PrintableToNul (replace_non_printable_chars_with_space book) := by
  induction book with
  | nil => trivial
  | cons c cs ih =>
    by_cases h : c = NUL
    · simp [replace_non_printable_chars_with_space, h, PrintableToNul]
    · by_cases hp : isprint c = true
      · have e : replace_non_printable_chars_with_space (c :: cs)
            = c :: replace_non_printable_chars_with_space cs := by
          simp [replace_non_printable_chars_with_space, h, hp]
        rw [e]; exact Or.inr ⟨hp, ih⟩
      · have e : replace_non_printable_chars_with_space (c :: cs)
            = ' ' :: replace_non_printable_chars_with_space cs := by
          simp [replace_non_printable_chars_with_space, h, hp]
        rw [e]; exact Or.inr ⟨by decide, ih⟩

/-- Every printable character stays where it is. -/
theorem replace_getElem? (book : List Char) (i : Nat) (c : Char)
    (h : book[i]? = some c) (hp : isprint c = true) :
    (replace_non_printable_chars_with_space book)[i]? = some c := by
  induction book generalizing i with
  | nil => simp at h
  | cons d ds ih =>
    by_cases hd : d = NUL
    · simp only [replace_non_printable_chars_with_space, hd, if_true]
      rw [← hd]; exact h
    · cases i with
      | zero =>
        have : d = c := by simpa using h
        subst this
        simp [replace_non_printable_chars_with_space, hd, hp]
      | succ i =>
        have h1 : ds[i]? = some c := by simpa using h
        simp [replace_non_printable_chars_with_space, hd, ih i h1]

theorem printable_dropWhile (f : Char → Bool) (hf : ∀ c, f c = true → c ≠ NUL)
    (s : List Char) (h : PrintableToNul s) : PrintableToNul (s.dropWhile f) := by
  induction s with
  | nil => trivial
  | cons c cs ih =>
    by_cases hc : f c = true
    · rw [List.dropWhile_cons_of_pos hc]
      rcases h with h | h
      · exact absurd h (hf c hc)
      · exact ih h.2
    · rw [List.dropWhile_cons_of_neg hc]; exact h

theorem printable_takeWhile (f : Char → Bool) (hf : ∀ c, f c = true → c ≠ NUL)
    (s : List Char) (h : PrintableToNul s) : ∀ c ∈ s.takeWhile f, isprint c = true := by
  induction s with
  | nil => simp
  | cons d ds ih =>
    by_cases hd : f d = true
    · rw [List.takeWhile_cons_of_pos hd]
      rcases h with h | h
      · exact absurd h (hf d hd)
      · intro c hc
        rcases List.mem_cons.mp hc with e | e
        · rw [e]; exact h.1
        · exact ih h.2 c e
    · rw [List.takeWhile_cons_of_neg hd]; simp

/-- What a `strtok_r` call returns: a non-empty token free of NUL and of
delimiters, printable if the text is, and a strictly shorter remaining text. -/
theorem strtok_r_some (delimiters : CStr) (s : List Char) (tok : CStr) (rest : List Char)
    (h : strtok_r delimiters s = some (tok, rest)) :
    tok ≠ [] ∧ (∀ c ∈ tok, c ≠ NUL ∧ c ∉ delimiters) ∧ rest.length < s.length ∧
    (PrintableToNul s → (∀ c ∈ tok, isprint c = true) ∧ PrintableToNul rest) := by
  unfold strtok_r at h
  have hdl := (List.dropWhile_sublist (l := s) (fun c => c != NUL && decide (c ∈ delimiters))).length_le
  have hdp := printable_dropWhile (fun c => c != NUL && decide (c ∈ delimiters))
    (by intro c hc; simp at hc; exact hc.1) s
  cases hs1 : s.dropWhile (fun c => c != NUL && decide (c ∈ delimiters)) with
  | nil => rw [hs1] at h; simp at h
  | cons c s1 =>
    rw [hs1] at h hdl hdp
    have hhead : ¬ ((fun c => c != NUL && decide (c ∈ delimiters)) c = true) := by
      have := List.head_dropWhile_not (fun c => c != NUL && decide (c ∈ delimiters)) s
        (by rw [hs1]; simp)
      simpa [hs1] using this
    by_cases hc : c = NUL
    · simp [hc] at h
    · simp only [hc, if_false] at h
      have hg : (fun c => c != NUL && !decide (c ∈ delimiters)) c = true := by
        simp only [bne_iff_ne, ne_eq, Bool.and_eq_true, decide_eq_true_eq, hc,
          not_false_eq_true, true_and, Bool.not_eq_true'] at hhead ⊢
        simpa using hhead
      have htl := (List.dropWhile_sublist (l := s1) (fun c => c != NUL && !decide (c ∈ delimiters))).length_le
      have htp := fun hp => printable_dropWhile (fun c => c != NUL && !decide (c ∈ delimiters))
        (by intro c hc; simp at hc; exact hc.1) (c :: s1) hp
      have hkp := fun hp => printable_takeWhile (fun c => c != NUL && !decide (c ∈ delimiters))
        (by intro c hc; simp at hc; exact hc.1) (c :: s1) hp
      have hmem : ∀ x ∈ (c :: s1).takeWhile (fun c => c != NUL && !decide (c ∈ delimiters)),
          x ≠ NUL ∧ x ∉ delimiters := by
        intro x hx
        have := List.mem_takeWhile_imp hx
        simpa using this
      have hne : (c :: s1).takeWhile (fun c => c != NUL && !decide (c ∈ delimiters)) ≠ [] := by
        rw [List.takeWhile_cons_of_pos (p := fun c => c != NUL && !decide (c ∈ delimiters)) hg]; simp
      have hdrop : (c :: s1).dropWhile (fun c => c != NUL && !decide (c ∈ delimiters))
          = s1.dropWhile (fun c => c != NUL && !decide (c ∈ delimiters)) :=
        List.dropWhile_cons_of_pos (p := fun c => c != NUL && !decide (c ∈ delimiters)) hg
      have hlen : (c :: s1).length ≤ s.length := hdl
      cases he : (c :: s1).dropWhile (fun c => c != NUL && !decide (c ∈ delimiters)) with
      | nil =>
        rw [he] at h
        simp only [Option.some.injEq, Prod.mk.injEq] at h
        obtain ⟨h1, h2⟩ := h
        subst h1; subst h2
        refine ⟨hne, hmem, ?_, fun hp => ⟨hkp (hdp hp), trivial⟩⟩
        simp only [List.length_cons, List.length_nil] at hlen ⊢; omega
      | cons d r =>
        rw [he] at h
        have hlr : (d :: r).length ≤ s1.length := by rw [← he, hdrop]; exact htl
        by_cases hd : d = NUL
        · simp only [hd, if_true, Option.some.injEq, Prod.mk.injEq] at h
          obtain ⟨h1, h2⟩ := h
          subst h1; subst h2
          refine ⟨hne, hmem, ?_, fun hp => ⟨hkp (hdp hp), Or.inl rfl⟩⟩
          simp only [List.length_cons] at hlen hlr ⊢; omega
        · simp only [hd, if_false, Option.some.injEq, Prod.mk.injEq] at h
          obtain ⟨h1, h2⟩ := h
          subst h1; subst h2
          refine ⟨hne, hmem, ?_, fun hp => ⟨hkp (hdp hp), ?_⟩⟩
          · simp only [List.length_cons] at hlen hlr ⊢; omega
          · have := htp (hdp hp)
            rw [he] at this
            rcases this with e | e
            · exact absurd e hd
            · exact e.2

/-- Once `strtok_r` has returned NULL or the budget exceeds the text length,
more budget yields no further token. -/
theorem strtok_all_fuel (delimiters : CStr) (n : Nat) : ∀ (m : Nat) (s : List Char),
    s.length < n → s.length < m → strtok_all delimiters n s = strtok_all delimiters m s := by
  induction n with
  | zero => intro m s h; omega
  | succ n ih =>
    intro m s hn hm
    cases m with
    | zero => omega
    | succ m =>
      simp only [strtok_all]
      cases h : strtok_r delimiters s with
      | none => rfl
      | some r =>
        obtain ⟨tok, rest⟩ := r
        have hlt := (strtok_r_some delimiters s tok rest h).2.2.1
        simp only
        rw [ih m rest (by omega) (by omega)]

theorem strtok_all_tokens (delimiters : CStr) (fuel : Nat) : ∀ (s : List Char),
    ∀ tok ∈ strtok_all delimiters fuel s,
      tok ≠ [] ∧ (∀ c ∈ tok, c ≠ NUL ∧ c ∉ delimiters) ∧
      (PrintableToNul s → ∀ c ∈ tok, isprint c = true) := by
  induction fuel with
  | zero => intro s tok h; simp [strtok_all] at h
  | succ n ih =>
    intro s tok h
    simp only [strtok_all] at h
    cases hr : strtok_r delimiters s with
    | none => rw [hr] at h; simp at h
    | some r =>
      obtain ⟨t, rest⟩ := r
      rw [hr] at h
      obtain ⟨h1, h2, _, h4⟩ := strtok_r_some delimiters s t rest hr
      rcases List.mem_cons.mp h with e | e
      · subst e; exact ⟨h1, h2, fun hp => (h4 hp).1⟩
      · obtain ⟨i1, i2, i3⟩ := ih rest tok e
        exact ⟨i1, i2, fun hp => i3 (h4 hp).2⟩

theorem replace_append_printable (w r : List Char) (hw : ∀ c ∈ w, isprint c = true) :
    replace_non_printable_chars_with_space (w ++ r)
      = w ++ replace_non_printable_chars_with_space r := by
  induction w with
  | nil => rfl
  | cons c cs ih =>
    have hc : isprint c = true := hw c (by simp)
    have hn : c ≠ NUL := by
      intro e; rw [e] at hc; exact absurd hc (by decide)
    have := ih (fun x hx => hw x (List.mem_cons_of_mem _ hx))
    simp [replace_non_printable_chars_with_space, hn, hc, this]

/-- A word followed by the end of the text. -/
theorem strtok_r_word_end (delimiters : CStr) (w : CStr) (hne : w ≠ [])
    (hw : ∀ c ∈ w, c ≠ NUL ∧ c ∉ delimiters) :
    strtok_r delimiters w = some (w, []) := by
  obtain ⟨a, w1, rfl⟩ := List.exists_cons_of_ne_nil hne
  have ha := hw a (by simp)
  have hf : ¬ ((fun c => c != NUL && decide (c ∈ delimiters)) a = true) := by simp [ha.2]
  have hg : ∀ c ∈ a :: w1, (fun c => c != NUL && !decide (c ∈ delimiters)) c = true := by
    intro c hc; have := hw c hc; simp [this.1, this.2]
  have htake : (a :: w1).takeWhile (fun c => c != NUL && !decide (c ∈ delimiters)) = a :: w1 :=
    List.takeWhile_eq_self_iff.mpr hg
  have hdrop : (a :: w1).dropWhile (fun c => c != NUL && !decide (c ∈ delimiters)) = [] :=
    List.dropWhile_eq_nil_iff.mpr hg
  unfold strtok_r
  rw [List.dropWhile_cons_of_neg (p := fun c => c != NUL && decide (c ∈ delimiters)) hf]
  simp only [ha.1, if_false, htake, hdrop]

/-- A word followed by a delimiter. -/
theorem strtok_r_word_delim (delimiters : CStr) (w : CStr) (d : Char) (r : List Char)
    (hne : w ≠ []) (hw : ∀ c ∈ w, c ≠ NUL ∧ c ∉ delimiters)
    (hd : d ≠ NUL) (hdd : d ∈ delimiters) :
    strtok_r delimiters (w ++ d :: r) = some (w, r) := by
  obtain ⟨a, w1, rfl⟩ := List.exists_cons_of_ne_nil hne
  have ha := hw a (by simp)
  have hf : ¬ ((fun c => c != NUL && decide (c ∈ delimiters)) a = true) := by simp [ha.2]
  have hg : ∀ c ∈ a :: w1, (fun c => c != NUL && !decide (c ∈ delimiters)) c = true := by
    intro c hc; have := hw c hc; simp [this.1, this.2]
  have hgd : ¬ ((fun c => c != NUL && !decide (c ∈ delimiters)) d = true) := by simp [hdd]
  have htake : (a :: w1 ++ d :: r).takeWhile (fun c => c != NUL && !decide (c ∈ delimiters))
      = a :: w1 := by
    rw [List.takeWhile_append_of_pos hg, List.takeWhile_cons_of_neg (p := fun c => c != NUL && !decide (c ∈ delimiters)) hgd, List.append_nil]
  have hdrop : (a :: w1 ++ d :: r).dropWhile (fun c => c != NUL && !decide (c ∈ delimiters))
      = d :: r := by
    rw [List.dropWhile_append_of_pos hg, List.dropWhile_cons_of_neg (p := fun c => c != NUL && !decide (c ∈ delimiters)) hgd]
  unfold strtok_r
  have e : a :: w1 ++ d :: r = a :: (w1 ++ d :: r) := rfl
  rw [e] at htake hdrop
  rw [e, List.dropWhile_cons_of_neg (p := fun c => c != NUL && decide (c ∈ delimiters)) hf]
  simp only [ha.1, if_false, htake, hdrop, hd]

theorem printable_not_delimiter (c : Char) (hp : isprint c = true) (hs : c ≠ ' ') :
    c ≠ NUL ∧ c ∉ main_delimiters := by
  refine ⟨?_, ?_⟩
  · intro e; rw [e] at hp; exact absurd hp (by decide)
  · intro hm
    simp only [main_delimiters, List.mem_cons, List.mem_singleton, List.not_mem_nil,
      or_false] at hm
    rcases hm with e | e | e
    · exact hs e
    · rw [e] at hp; exact absurd hp (by decide)
    · rw [e] at hp; exact absurd hp (by decide)

/-- A non-printable character between two words separates them. -/
theorem strtok_all_separated (w1 w2 : CStr) (c : Char) (h1 : w1 ≠ []) (h2 : w2 ≠ [])
    (hw1 : ∀ x ∈ w1, isprint x = true ∧ x ≠ ' ') (hw2 : ∀ x ∈ w2, isprint x = true ∧ x ≠ ' ')
    (hc : isprint c = false) (hn : c ≠ NUL) :
    strtok_all main_delimiters ((w1 ++ c :: w2).length + 1)
      (replace_non_printable_chars_with_space (w1 ++ c :: w2)) = [w1, w2] := by
  have hrep : replace_non_printable_chars_with_space (w1 ++ c :: w2) = w1 ++ ' ' :: w2 := by
    rw [replace_append_printable w1 _ (fun x hx => (hw1 x hx).1)]
    have := replace_append_printable w2 [] (fun x hx => (hw2 x hx).1)
    simp only [List.append_nil] at this
    have hnil : replace_non_printable_chars_with_space [] = [] := rfl
    rw [hnil] at this
    simp [replace_non_printable_chars_with_space, hn, hc, this]
  have d1 : ∀ x ∈ w1, x ≠ NUL ∧ x ∉ main_delimiters :=
    fun x hx => printable_not_delimiter x (hw1 x hx).1 (hw1 x hx).2
  have d2 : ∀ x ∈ w2, x ≠ NUL ∧ x ∉ main_delimiters :=
    fun x hx => printable_not_delimiter x (hw2 x hx).1 (hw2 x hx).2
  have s1 := strtok_r_word_delim main_delimiters w1 ' ' w2 h1 d1 (by decide) (by decide)
  have s2 := strtok_r_word_end main_delimiters w2 h2 d2
  have s3 : strtok_r main_delimiters [] = none := rfl
  have hlen : (w1 ++ c :: w2).length + 1 = ((w1 ++ c :: w2).length - 2) + 3 := by
    have := List.length_pos.mpr h1
    have := List.length_pos.mpr h2
    simp only [List.length_append, List.length_cons] at *
    omega
  rw [hrep, hlen]
  simp only [strtok_all, s1, s2, s3]

theorem printable_range (c : Char) (hp : isprint c = true) (hs : c ≠ ' ') :
    0x21 ≤ c.toNat ∧ c.toNat ≤ 0x7E := by
  simp only [isprint, Bool.and_eq_true, decide_eq_true_eq] at hp
  have hne : c.toNat ≠ 0x20 := by
    intro e
    apply hs
    rw [← Char.ofNat_toNat c, e]
  omega

/-- The tokens of a preprocessed text are non-empty and made of printable
characters other than space. -/
theorem strtok_all_replace (book : List Char) (fuel : Nat) :
    ∀ tok ∈ strtok_all main_delimiters fuel (replace_non_printable_chars_with_space book),
      tok ≠ [] ∧ ∀ c ∈ tok, 0x21 ≤ c.toNat ∧ c.toNat ≤ 0x7E := by
  intro tok h
  obtain ⟨h1, h2, h3⟩ := strtok_all_tokens main_delimiters fuel _ tok h
  refine ⟨h1, fun c hc => printable_range c (h3 (replace_printable book) c hc) ?_⟩
  intro e
  exact (h2 c hc).2 (by rw [e]; decide)

theorem tokenize_loop_tokens (ts : List CStr) (st : Model)
    (h : tokenize_loop Model.empty none ts = some st) : ∀ x, x ∈ st.tokens ↔ x ∈ ts := by
  rw [tokenize_loop_eq] at h
  split at h
  · simp only [Option.some.injEq] at h
    subst h
    exact mem_registry_of ts
  · cases h

/-- C6. For every input text, after `replace_non_printable_chars_with_space`
and tokenization with the delimiters space, newline and carriage return, every
registered token is non-empty and consists only of characters in `0x21..0x7E`.
The preprocessing keeps the length of the text and every printable character
in place.  A non-printable character (other than the terminating NUL) between
two words separates them into two tokens, as in "a<TAB>b". -/
theorem tokens_printable :
    (∀ (book : List Char) (st : Model),
      tokenize_and_fill_succs Model.empty main_delimiters
        (replace_non_printable_chars_with_space book) = some st →
      ∀ tok ∈ st.tokens, tok ≠ [] ∧ ∀ c ∈ tok, 0x21 ≤ c.toNat ∧ c.toNat ≤ 0x7E) ∧
    (∀ book : List Char,
      (replace_non_printable_chars_with_space book).length = book.length) ∧
    (∀ (book : List Char) (i : Nat) (c : Char), book[i]? = some c → isprint c = true →
      (replace_non_printable_chars_with_space book)[i]? = some c) ∧
    (∀ (w1 w2 : CStr) (c : Char), w1 ≠ [] → w2 ≠ [] →
      (∀ x ∈ w1, isprint x = true ∧ x ≠ ' ') → (∀ x ∈ w2, isprint x = true ∧ x ≠ ' ') →
      isprint c = false → c ≠ NUL →
      strtok_all main_delimiters ((w1 ++ c :: w2).length + 1)
        (replace_non_printable_chars_with_space (w1 ++ c :: w2)) = [w1, w2] ∧
      ∃ st, tokenize_and_fill_succs Model.empty main_delimiters
          (replace_non_printable_chars_with_space (w1 ++ c :: w2)) = some st ∧
        ∀ x, x ∈ st.tokens ↔ x = w1 ∨ x = w2) ∧
    (tokenize_and_fill_succs Model.empty main_delimiters
        (replace_non_printable_chars_with_space ['a', Char.ofNat 9, 'b'])).map Model.tokens
      = some [['a'], ['b']] := by
  refine ⟨?_, replace_length, replace_getElem?, ?_, by decide⟩
  · intro book st h tok htok
    unfold tokenize_and_fill_succs at h
    have hm := (tokenize_loop_tokens _ st h tok).mp htok
    exact strtok_all_replace book _ tok hm
  · intro w1 w2 c h1 h2 hw1 hw2 hc hn
    have hs := strtok_all_separated w1 w2 c h1 h2 hw1 hw2 hc hn
    refine ⟨hs, ?_⟩
    have hlen : (replace_non_printable_chars_with_space (w1 ++ c :: w2)).length
        = (w1 ++ c :: w2).length := replace_length _
    have hle : (registry_of [w1, w2]).length ≤ MAX_WORD_COUNT := by
      rw [registry_of_length]
      exact le_trans (List.toFinset_card_le _) (by simp [MAX_WORD_COUNT])
    refine ⟨model_of [w1, w2], ?_, ?_⟩
    · unfold tokenize_and_fill_succs
      rw [hlen, hs, tokenize_loop_eq, if_pos hle]
    · intro x
      rw [show (model_of [w1, w2]).tokens = registry_of [w1, w2] from rfl, mem_registry_of]
      simp

/-! ## Sentence structure -/

theorem intercalate_cons_eq (sep : CStr) (t : CStr) (more : List CStr) :
    List.intercalate sep (t :: more) = t ++ (more.map (fun x => sep ++ x)).flatten := by
  induction more generalizing t with
  | nil => simp [List.intercalate]
  | cons y ys ih =>
    have := ih y
    simp only [List.intercalate, List.intersperse, List.flatten_cons, List.map_cons] at this ⊢
    rw [this]
    simp

theorem getD_mem_of_ne_nil (row : List CStr) (k : Nat) (h : row.length ≠ 0) :
    row.getD (k % row.length) [] ∈ row := by
  have hlt : k % row.length < row.length := Nat.mod_lt _ (Nat.pos_of_ne_zero h)
  rw [List.getD_eq_getElem?_getD, List.getElem?_eq_getElem hlt]
  exact List.getElem_mem _

/-- On a model whose successor entries are registered, a walk that returns
has appended registered tokens, each after one space, and left the model as
it was. -/
theorem walk_done (C : Nat) (rnd : Nat → Nat) (st : Model)
    (hs : ∀ i, ∀ x ∈ st.succs i, x ∈ st.tokens) :
    ∀ (fuel cur : Nat) (s : CStr) (pos : Nat) (r : CStr) (st1 : Model) (pos1 : Nat),
      walk C rnd fuel st cur s pos = .done r st1 pos1 →
      ∃ more : List CStr, (∀ t ∈ more, t ∈ st.tokens) ∧
        r = s ++ (more.map (fun x => [' '] ++ x)).flatten ∧ st1 = st := by
  intro fuel
  induction fuel with
  | zero => intro cur s pos r st1 pos1 h; simp [walk] at h
  | succ n ih =>
    intro cur s pos r st1 pos1 h
    by_cases h0 : (st.succs cur).length = 0
    · rw [walk_empty C rnd n st cur s pos h0] at h
      injection h with e1 e2 e3
      exact ⟨[], by simp, by simp [e1], e2.symm⟩
    · have hmem := hs cur _ (getD_mem_of_ne_nil (st.succs cur) (rnd pos) h0)
      by_cases hfull : s.length +
          ((st.succs cur).getD (rnd pos % (st.succs cur).length) []).length + 2 ≥ size_pred C
      · rw [walk_full C rnd n st cur s pos _ h0 rfl hfull] at h
        injection h with e1 e2 e3
        exact ⟨[], by simp, by simp [e1], e2.symm⟩
      · have hfit := Nat.not_le.mp hfull
        cases hend : token_ends_a_sentence
            ((st.succs cur).getD (rnd pos % (st.succs cur).length) []) with
        | true =>
          rw [walk_terminator C rnd n st cur s pos _ h0 rfl hfit hend] at h
          injection h with e1 e2 e3
          refine ⟨[(st.succs cur).getD (rnd pos % (st.succs cur).length) []], ?_, ?_, e2.symm⟩
          · intro t ht; rw [List.mem_singleton.mp ht]; exact hmem
          · rw [← e1]; simp
        | false =>
          have hid := token_id_of_mem st _ hmem
          rw [walk_continue C rnd n st cur s pos _ _ st h0 rfl hfit hend hid] at h
          obtain ⟨more, hm1, hm2, hm3⟩ := ih _ _ _ r st1 pos1 h
          refine ⟨(st.succs cur).getD (rnd pos % (st.succs cur).length) [] :: more, ?_, ?_, hm3⟩
          · intro t ht
            rcases List.mem_cons.mp ht with e | e
            · rw [e]; exact hmem
            · exact hm1 t e
          · rw [hm2]; simp

theorem random_token_id_some (st : Model) (rnd : Nat → Nat) :
    ∀ (fuel pos id pos1 : Nat),
      random_token_id_that_starts_a_sentence st rnd fuel pos = some (some (id, pos1)) →
      id < st.tokens.length ∧ starts_upper (st.tokens.getD id []) = true := by
  intro fuel
  induction fuel with
  | zero => intro pos id pos1 h; simp [random_token_id_that_starts_a_sentence] at h
  | succ n ih =>
    intro pos id pos1 h
    simp only [random_token_id_that_starts_a_sentence] at h
    split at h
    · cases h
    · rename_i hlen
      split at h
      · rename_i hup
        simp only [Option.some.injEq, Prod.mk.injEq] at h
        rw [← h.1]
        exact ⟨Nat.mod_lt _ (Nat.pos_of_ne_zero hlen), hup⟩
      · exact ih _ _ _ h

theorem chain_of_no_space (l : CStr) (h : ' ' ∉ l) :
    List.Chain' (fun a b : Char => ¬ (a = ' ' ∧ b = ' ')) l := by
  induction l with
  | nil => exact List.chain'_nil
  | cons a l ih =>
    have ha : a ≠ ' ' := fun e => h (by simp [e])
    have hl : ' ' ∉ l := fun e => h (List.mem_cons_of_mem _ e)
    exact (ih hl).cons' (fun y _ hay => ha hay.1)

/-- Appending a space and a non-empty space-free token keeps a string free of
leading, trailing and doubled spaces. -/
theorem spaced_append (s t : CStr) (hne : s ≠ []) (hhead : s.head? ≠ some ' ')
    (hlast : s.getLast? ≠ some ' ')
    (hchain : List.Chain' (fun a b : Char => ¬ (a = ' ' ∧ b = ' ')) s)
    (ht : t ≠ [] ∧ ' ' ∉ t) :
    s ++ ([' '] ++ t) ≠ [] ∧ (s ++ ([' '] ++ t)).head? ≠ some ' ' ∧
    (s ++ ([' '] ++ t)).getLast? ≠ some ' ' ∧
    List.Chain' (fun a b : Char => ¬ (a = ' ' ∧ b = ' ')) (s ++ ([' '] ++ t)) := by
  obtain ⟨a, s1, rfl⟩ := List.exists_cons_of_ne_nil hne
  obtain ⟨b, t1, rfl⟩ := List.exists_cons_of_ne_nil ht.1
  have hb : b ≠ ' ' := fun e => ht.2 (by simp [e])
  refine ⟨by simp, ?_, ?_, ?_⟩
  · simpa using hhead
  · intro e
    have hmem := List.mem_of_getLast?_eq_some e
    have e2 : (a :: s1 ++ ([' '] ++ b :: t1)).getLast? = (b :: t1).getLast? := by
      rw [← List.append_assoc, List.getLast?_append]
      simp [List.getLast?_cons_cons]
      cases h : (b :: t1).getLast? with
      | none => simp at h
      | some x => simp
    rw [e2] at e
    exact ht.2 (List.mem_of_getLast?_eq_some e)
  · refine List.Chain'.append hchain ?_ ?_
    · exact (chain_of_no_space (b :: t1) ht.2).cons' (fun y hy hay => by
        simp only [List.head?_cons, Option.mem_def, Option.some.injEq] at hy
        exact hb (hy ▸ hay.2))
    · intro x hx y hy hxy
      exact hlast (by rw [Option.mem_def.mp hx, hxy.1])

theorem spaced_flatten (more : List CStr) : ∀ (s : CStr), s ≠ [] → s.head? ≠ some ' ' →
    s.getLast? ≠ some ' ' → List.Chain' (fun a b : Char => ¬ (a = ' ' ∧ b = ' ')) s →
    (∀ t ∈ more, t ≠ [] ∧ ' ' ∉ t) →
    (s ++ (more.map (fun x => [' '] ++ x)).flatten).head? ≠ some ' ' ∧
    (s ++ (more.map (fun x => [' '] ++ x)).flatten).getLast? ≠ some ' ' ∧
    List.Chain' (fun a b : Char => ¬ (a = ' ' ∧ b = ' '))
      (s ++ (more.map (fun x => [' '] ++ x)).flatten) := by
  induction more with
  | nil =>
    intro s _ h2 h3 h4 _
    simp only [List.map_nil, List.flatten_nil, List.append_nil]
    exact ⟨h2, h3, h4⟩
  | cons t more ih =>
    intro s h1 h2 h3 h4 hm
    obtain ⟨q1, q2, q3, q4⟩ := spaced_append s t h1 h2 h3 h4 (hm t (by simp))
    have := ih (s ++ ([' '] ++ t)) q1 q2 q3 q4 (fun x hx => hm x (List.mem_cons_of_mem _ hx))
    simpa [List.append_assoc] using this

/-- C4. Sentence validity (structure). On every model whose successor entries
are registered tokens and whose tokens are non-empty and free of spaces (every
model built by tokenization is one), whenever `generate_sentence` returns, the
sentence written into an initially empty buffer is `k ≥ 1` registered tokens
joined by exactly one space each, with no leading, trailing or doubled space,
its first token is a registered token whose first character is an uppercase
letter, and the model is unchanged. -/
theorem sentence_structure (st : Model)
    (hs : ∀ i, ∀ x ∈ st.succs i, x ∈ st.tokens)
    (ht : ∀ x ∈ st.tokens, x ≠ [] ∧ ' ' ∉ x)
    (C : Nat) (rnd : Nat → Nat) (fuel : Nat) (r : CStr) (st1 : Model) (pos1 : Nat)
    (h : generate_sentence st [] C rnd fuel = .done r st1 pos1) :
    ∃ (first : CStr) (rest : List CStr),
      first ∈ st.tokens ∧ (∀ t ∈ rest, t ∈ st.tokens) ∧
      r = List.intercalate [' '] (first :: rest) ∧
      (∃ c, first.head? = some c ∧ 0x41 ≤ c.toNat ∧ c.toNat ≤ 0x5A) ∧
      r.head? ≠ some ' ' ∧ r.getLast? ≠ some ' ' ∧
      List.Chain' (fun a b : Char => ¬ (a = ' ' ∧ b = ' ')) r ∧
      st1 = st := by
  unfold generate_sentence at h
  cases hstart : random_token_id_that_starts_a_sentence st rnd fuel 0 with
  | none => rw [hstart] at h; cases h
  | some o =>
    cases o with
    | none => rw [hstart] at h; cases h
    | some pr =>
      obtain ⟨id, pos⟩ := pr
      rw [hstart] at h
      simp only [generate_from, List.nil_append] at h
      obtain ⟨hid, hup⟩ := random_token_id_some st rnd fuel 0 id pos hstart
      have hfirst : st.tokens.getD id [] ∈ st.tokens := by
        rw [List.getD_eq_getElem?_getD, List.getElem?_eq_getElem hid]
        exact List.getElem_mem _
      have hft := ht _ hfirst
      have hupper : ∃ c, (st.tokens.getD id []).head? = some c ∧
          0x41 ≤ c.toNat ∧ c.toNat ≤ 0x5A := by
        obtain ⟨a, l, hal⟩ := List.exists_cons_of_ne_nil hft.1
        refine ⟨a, by rw [hal]; rfl, ?_⟩
        rw [hal] at hup
        simpa [starts_upper, isupper] using hup
      have hq1 : (st.tokens.getD id []).head? ≠ some ' ' := by
        intro e; exact hft.2 (List.mem_of_mem_head? e)
      have hq2 : (st.tokens.getD id []).getLast? ≠ some ' ' := by
        intro e; exact hft.2 (List.mem_of_getLast?_eq_some e)
      have hq3 := chain_of_no_space _ hft.2
      obtain ⟨more, hm1, hm2, hm3⟩ : ∃ more : List CStr, (∀ t ∈ more, t ∈ st.tokens) ∧
          r = st.tokens.getD id [] ++ (more.map (fun x => [' '] ++ x)).flatten ∧ st1 = st := by
        split at h
        · injection h with e1 e2 e3
          exact ⟨[], by simp, by rw [← e1]; simp, e2.symm⟩
        · exact walk_done C rnd st hs _ _ _ _ r st1 pos1 h
      obtain ⟨p1, p2, p3⟩ := spaced_flatten more _ hft.1 hq1 hq2 hq3 (fun t ht1 => ht t (hm1 t ht1))
      refine ⟨_, more, hfirst, hm1, ?_, hupper, ?_, ?_, ?_, hm3⟩
      · rw [intercalate_cons_eq]; exact hm2
      · rw [hm2]; exact p1
      · rw [hm2]; exact p2
      · rw [hm2]; exact p3

/-! ## Instances on concrete models -/

/-- The tokens of a model built by `main`'s tokenization are non-empty and free
of spaces. -/
theorem tokenize_tokens_spacefree (str : List Char) (st : Model)
    (h : tokenize_and_fill_succs Model.empty main_delimiters str = some st) :
    ∀ x ∈ st.tokens, x ≠ [] ∧ ' ' ∉ x := by
  intro x hx
  unfold tokenize_and_fill_succs at h
  have hm := (tokenize_loop_tokens _ st h x).mp hx
  obtain ⟨h1, h2, _⟩ := strtok_all_tokens main_delimiters _ _ x hm
  exact ⟨h1, fun e => (h2 ' ' e).2 (by decide)⟩

theorem victor_generate :
    generate_sentence (model_of victor_tokens) [] 1000 (fun _ => 0) 2
      = .done "Victor said hello.".toList (model_of victor_tokens) 3 := by
  have hs : random_token_id_that_starts_a_sentence (model_of victor_tokens) (fun _ => 0) 2 0
      = some (some (0, 1)) := by decide
  simp only [generate_sentence, hs]
  exact victor_walk (model_of victor_tokens) tokenize_victor (fun _ => 0) 2 1 (Nat.le_refl 2)

/-- C4 on the model of the example corpus, for the sentence "Victor said hello.". -/
theorem sentence_structure_witness :
    (∀ i, ∀ x ∈ (model_of victor_tokens).succs i, x ∈ (model_of victor_tokens).tokens) ∧
    (∀ x ∈ (model_of victor_tokens).tokens, x ≠ [] ∧ ' ' ∉ x) ∧
    generate_sentence (model_of victor_tokens) [] 1000 (fun _ => 0) 2
      = .done "Victor said hello.".toList (model_of victor_tokens) 3 ∧
    ∃ (first : CStr) (rest : List CStr),
      first ∈ (model_of victor_tokens).tokens ∧
      (∀ t ∈ rest, t ∈ (model_of victor_tokens).tokens) ∧
      "Victor said hello.".toList = List.intercalate [' '] (first :: rest) ∧
      (∃ c, first.head? = some c ∧ 0x41 ≤ c.toNat ∧ c.toNat ≤ 0x5A) ∧
      "Victor said hello.".toList.head? ≠ some ' ' ∧
      "Victor said hello.".toList.getLast? ≠ some ' ' ∧
      List.Chain' (fun a b : Char => ¬ (a = ' ' ∧ b = ' ')) "Victor said hello.".toList ∧
      model_of victor_tokens = model_of victor_tokens :=
  ⟨(wellFormed_tokenize _ _ _ tokenize_victor).succs_mem,
    tokenize_tokens_spacefree _ _ tokenize_victor, victor_generate,
    sentence_structure (model_of victor_tokens)
      (wellFormed_tokenize _ _ _ tokenize_victor).succs_mem
      (tokenize_tokens_spacefree _ _ tokenize_victor) 1000 (fun _ => 0) 2 _ _ _ victor_generate⟩

theorem token_id_repeated (n : Nat) :
    token_id (repeated_model n) ['a'] = some (0, repeated_model n) := by
  have hm : ['a'] ∈ (repeated_model n).tokens := by simp [repeated_model]
  rw [token_id_of_mem _ _ hm]
  simp [repeated_model, first_index]

theorem append_to_succs_repeated (n : Nat) (h : n < MAX_SUCCESSOR_COUNT) :
    append_to_succs (repeated_model n) ['a'] ['a'] = some (repeated_model (n + 1)) := by
  have hrow : (repeated_model n).succs 0 = List.replicate n ['a'] := by simp [repeated_model]
  have hlt : ((repeated_model n).succs 0).length < MAX_SUCCESSOR_COUNT := by
    rw [hrow, List.length_replicate]; exact h
  simp only [append_to_succs, token_id_repeated, hlt, if_true]
  congr 1
  show Model.mk _ _ = Model.mk _ _
  congr 1
  simp [repeated_model, List.replicate_succ']

/-- A successor row filled up to any length within the capacity is reachable. -/
theorem reach_repeated (n : Nat) (h : n ≤ MAX_SUCCESSOR_COUNT) :
    Reach Model.empty (repeated_model n) := by
  induction n with
  | zero =>
    exact Relation.ReflTransGen.single (Step.token_id Model.empty ['a'] 0 _ rfl)
  | succ n ih =>
    exact Relation.ReflTransGen.tail (ih (by omega))
      (Step.append_to_succs _ ['a'] ['a'] _ (append_to_succs_repeated n (by omega)))

/-- C8 (amended) on a reachable model whose successor row 0 is full. -/
theorem wellFormed_invariant_witness :
    Reach Model.empty (repeated_model MAX_SUCCESSOR_COUNT) ∧
    ((repeated_model MAX_SUCCESSOR_COUNT).tokens[0]? = some ['a'] ∧
      ((repeated_model MAX_SUCCESSOR_COUNT).succs 0).length = MAX_SUCCESSOR_COUNT) ∧
    ((repeated_model MAX_SUCCESSOR_COUNT).tokens.Nodup ∧
    (∀ i, ∀ x ∈ (repeated_model MAX_SUCCESSOR_COUNT).succs i,
      x ∈ (repeated_model MAX_SUCCESSOR_COUNT).tokens) ∧
    (repeated_model MAX_SUCCESSOR_COUNT).tokens.length ≤ MAX_WORD_COUNT ∧
    (∀ i, ((repeated_model MAX_SUCCESSOR_COUNT).succs i).length ≤ MAX_SUCCESSOR_COUNT) ∧
    (∀ token succ id, (repeated_model MAX_SUCCESSOR_COUNT).tokens[id]? = some token →
      ((repeated_model MAX_SUCCESSOR_COUNT).succs id).length = MAX_SUCCESSOR_COUNT →
      (succ ∈ (repeated_model MAX_SUCCESSOR_COUNT).tokens →
        append_to_succs (repeated_model MAX_SUCCESSOR_COUNT) token succ
          = some (repeated_model MAX_SUCCESSOR_COUNT)) ∧
      (∀ st1, append_to_succs (repeated_model MAX_SUCCESSOR_COUNT) token succ = some st1 →
        st1.succs = (repeated_model MAX_SUCCESSOR_COUNT).succs) ∧
      (append_to_succs (repeated_model MAX_SUCCESSOR_COUNT) token succ = none ↔
        succ ∉ (repeated_model MAX_SUCCESSOR_COUNT).tokens ∧
          MAX_WORD_COUNT ≤ (repeated_model MAX_SUCCESSOR_COUNT).tokens.length))) :=
  ⟨reach_repeated _ (Nat.le_refl _),
    ⟨rfl, by simp [repeated_model]⟩,
    wellFormed_invariant _ (reach_repeated _ (Nat.le_refl _))⟩

/-- C1 on the tokens of the example corpus. -/
theorem successor_rows_exact_witness :
    victor_tokens.toFinset.card ≤ MAX_WORD_COUNT ∧
    ∃ st, tokenize_loop Model.empty none victor_tokens = some st ∧
      (∀ A ∈ victor_tokens, ∃ id, st.tokens[id]? = some A ∧ token_id st A = some (id, st) ∧
        st.succs id = (followers A victor_tokens).take MAX_SUCCESSOR_COUNT) ∧
      (∀ id, st.tokens.length ≤ id → st.succs id = []) ∧
      (∀ i id, ∀ hi0 : i < victor_tokens.length, ∀ hi : i + 1 < victor_tokens.length,
        st.tokens[id]? = some victor_tokens[i] →
        (followers victor_tokens[i] (victor_tokens.take (i + 1))).length
          < MAX_SUCCESSOR_COUNT →
        victor_tokens[i + 1] ∈ st.succs id) :=
  ⟨le_trans (List.toFinset_card_le _) (by decide),
    successor_rows_exact victor_tokens (le_trans (List.toFinset_card_le _) (by decide))⟩

/-- C5 on the tokens of the example corpus. -/
theorem registry_first_occurrence_order_witness :
    victor_tokens.toFinset.card ≤ MAX_WORD_COUNT ∧
    ∃ st, tokenize_loop Model.empty none victor_tokens = some st ∧
      st.tokens = registry_of victor_tokens ∧
      st.tokens.Nodup ∧ (∀ x, x ∈ st.tokens ↔ x ∈ victor_tokens) ∧
      st.tokens.length = victor_tokens.toFinset.card ∧
      (∀ i a, st.tokens[i]? = some a →
        i = (victor_tokens.take (first_index a victor_tokens)).toFinset.card) ∧
      (∀ (i j : Nat) (a b : CStr), st.tokens[i]? = some a → st.tokens[j]? = some b → i < j →
        first_index a victor_tokens < first_index b victor_tokens) ∧
      (∀ a ∈ victor_tokens, token_id st a
        = some ((victor_tokens.take (first_index a victor_tokens)).toFinset.card, st)) ∧
      (∀ k, ∃ stk, tokenize_loop Model.empty none (victor_tokens.take k) = some stk ∧
        ∃ l, st.tokens = stk.tokens ++ l) :=
  ⟨le_trans (List.toFinset_card_le _) (by decide),
    registry_first_occurrence_order victor_tokens
      (le_trans (List.toFinset_card_le _) (by decide))⟩

/-! ## The walk loop: general facts -/

theorem walk_tokens_empty (C : Nat) (rnd : Nat → Nat) (fuel : Nat) (st : Model) (cur : Nat)
    (s : CStr) (pos : Nat) (h : (st.succs cur).length = 0) :
    walk_tokens C rnd (fuel + 1) st cur s pos = [] := by
  simp [walk_tokens, h]

theorem walk_tokens_full (C : Nat) (rnd : Nat → Nat) (fuel : Nat) (st : Model) (cur : Nat)
    (s : CStr) (pos : Nat) (h : (st.succs cur).length ≠ 0)
    (hfull : s.length + ((st.succs cur).getD (rnd pos % (st.succs cur).length) []).length + 2
      ≥ size_pred C) :
    walk_tokens C rnd (fuel + 1) st cur s pos = [] := by
  simp only [walk_tokens, h, if_false, hfull, if_true]

theorem walk_tokens_terminator (C : Nat) (rnd : Nat → Nat) (fuel : Nat) (st : Model)
    (cur : Nat) (s : CStr) (pos : Nat) (h : (st.succs cur).length ≠ 0)
    (hfit : s.length + ((st.succs cur).getD (rnd pos % (st.succs cur).length) []).length + 2
      < size_pred C)
    (hend : token_ends_a_sentence
      ((st.succs cur).getD (rnd pos % (st.succs cur).length) []) = true) :
    walk_tokens C rnd (fuel + 1) st cur s pos
      = [(st.succs cur).getD (rnd pos % (st.succs cur).length) []] := by
  have := Nat.not_le.mpr hfit
  simp only [walk_tokens, h, if_false, this, hend, if_true]

theorem walk_tokens_fatal (C : Nat) (rnd : Nat → Nat) (fuel : Nat) (st : Model)
    (cur : Nat) (s : CStr) (pos : Nat) (h : (st.succs cur).length ≠ 0)
    (hfit : s.length + ((st.succs cur).getD (rnd pos % (st.succs cur).length) []).length + 2
      < size_pred C)
    (hend : token_ends_a_sentence
      ((st.succs cur).getD (rnd pos % (st.succs cur).length) []) = false)
    (hid : token_id st ((st.succs cur).getD (rnd pos % (st.succs cur).length) []) = none) :
    walk_tokens C rnd (fuel + 1) st cur s pos
      = [(st.succs cur).getD (rnd pos % (st.succs cur).length) []] := by
  have := Nat.not_le.mpr hfit
  simp only [walk_tokens, h, if_false, this, hend, hid, Bool.false_eq_true]

theorem walk_tokens_continue (C : Nat) (rnd : Nat → Nat) (fuel : Nat) (st : Model)
    (cur : Nat) (s : CStr) (pos : Nat) (id : Nat) (st1 : Model)
    (h : (st.succs cur).length ≠ 0)
    (hfit : s.length + ((st.succs cur).getD (rnd pos % (st.succs cur).length) []).length + 2
      < size_pred C)
    (hend : token_ends_a_sentence
      ((st.succs cur).getD (rnd pos % (st.succs cur).length) []) = false)
    (hid : token_id st ((st.succs cur).getD (rnd pos % (st.succs cur).length) [])
      = some (id, st1)) :
    walk_tokens C rnd (fuel + 1) st cur s pos
      = (st.succs cur).getD (rnd pos % (st.succs cur).length) [] ::
        walk_tokens C rnd fuel st1 id
          (s ++ [' '] ++ (st.succs cur).getD (rnd pos % (st.succs cur).length) []) (pos + 1) := by
  have := Nat.not_le.mpr hfit
  simp only [walk_tokens, h, if_false, this, hend, hid, Bool.false_eq_true]

/-- The five ways an iteration of the walk loop can go, for the loop and for
the tokens it appends. -/
theorem walk_step_cases (C : Nat) (rnd : Nat → Nat) (fuel : Nat) (st : Model) (cur : Nat)
    (s : CStr) (pos : Nat) :
    ((st.succs cur).length = 0 ∧
      walk C rnd (fuel + 1) st cur s pos = .done s st pos ∧
      walk_tokens C rnd (fuel + 1) st cur s pos = []) ∨
    ((st.succs cur).length ≠ 0 ∧
      s.length + ((st.succs cur).getD (rnd pos % (st.succs cur).length) []).length + 2
        ≥ size_pred C ∧
      walk C rnd (fuel + 1) st cur s pos = .done s st (pos + 1) ∧
      walk_tokens C rnd (fuel + 1) st cur s pos = []) ∨
    ((st.succs cur).length ≠ 0 ∧
      s.length + ((st.succs cur).getD (rnd pos % (st.succs cur).length) []).length + 2
        < size_pred C ∧
      token_ends_a_sentence ((st.succs cur).getD (rnd pos % (st.succs cur).length) []) = true ∧
      walk C rnd (fuel + 1) st cur s pos
        = .done (s ++ [' '] ++ (st.succs cur).getD (rnd pos % (st.succs cur).length) [])
            st (pos + 1) ∧
      walk_tokens C rnd (fuel + 1) st cur s pos
        = [(st.succs cur).getD (rnd pos % (st.succs cur).length) []]) ∨
    ((st.succs cur).length ≠ 0 ∧
      s.length + ((st.succs cur).getD (rnd pos % (st.succs cur).length) []).length + 2
        < size_pred C ∧
      token_ends_a_sentence ((st.succs cur).getD (rnd pos % (st.succs cur).length) []) = false ∧
      token_id st ((st.succs cur).getD (rnd pos % (st.succs cur).length) []) = none ∧
      walk C rnd (fuel + 1) st cur s pos = .fatal ∧
      walk_tokens C rnd (fuel + 1) st cur s pos
        = [(st.succs cur).getD (rnd pos % (st.succs cur).length) []]) ∨
    ((st.succs cur).length ≠ 0 ∧
      s.length + ((st.succs cur).getD (rnd pos % (st.succs cur).length) []).length + 2
        < size_pred C ∧
      token_ends_a_sentence ((st.succs cur).getD (rnd pos % (st.succs cur).length) []) = false ∧
      ∃ id st1,
        token_id st ((st.succs cur).getD (rnd pos % (st.succs cur).length) []) = some (id, st1) ∧
        walk C rnd (fuel + 1) st cur s pos
          = walk C rnd fuel st1 id
              (s ++ [' '] ++ (st.succs cur).getD (rnd pos % (st.succs cur).length) [])
              (pos + 1) ∧
        walk_tokens C rnd (fuel + 1) st cur s pos
          = (st.succs cur).getD (rnd pos % (st.succs cur).length) [] ::
            walk_tokens C rnd fuel st1 id
              (s ++ [' '] ++ (st.succs cur).getD (rnd pos % (st.succs cur).length) [])
              (pos + 1)) := by
  by_cases h0 : (st.succs cur).length = 0
  · exact Or.inl ⟨h0, walk_empty C rnd fuel st cur s pos h0, by simp [walk_tokens, h0]⟩
  · right
    by_cases hfull : s.length +
        ((st.succs cur).getD (rnd pos % (st.succs cur).length) []).length + 2 ≥ size_pred C
    · exact Or.inl ⟨h0, hfull, walk_full C rnd fuel st cur s pos _ h0 rfl hfull,
        by simp only [walk_tokens, h0, if_false, hfull, if_true]⟩
    · right
      have hfit := Nat.not_le.mp hfull
      cases hend : token_ends_a_sentence
          ((st.succs cur).getD (rnd pos % (st.succs cur).length) []) with
      | true =>
        exact Or.inl ⟨h0, hfit, rfl, walk_terminator C rnd fuel st cur s pos _ h0 rfl hfit hend,
          by simp only [walk_tokens, h0, if_false, hfull, hend, if_true]⟩
      | false =>
        right
        cases hid : token_id st ((st.succs cur).getD (rnd pos % (st.succs cur).length) []) with
        | none =>
          exact Or.inl ⟨h0, hfit, rfl, rfl, walk_fatal C rnd fuel st cur s pos _ h0 rfl hfit hend hid,
            by simp only [walk_tokens, h0, if_false, hfull, hend, hid, Bool.false_eq_true]⟩
        | some r =>
          obtain ⟨id, st1⟩ := r
          exact Or.inr ⟨h0, hfit, rfl, id, st1, rfl,
            walk_continue C rnd fuel st cur s pos _ id st1 h0 rfl hfit hend hid,
            by simp only [walk_tokens, h0, if_false, hfull, hend, hid, Bool.false_eq_true]⟩

/-- A walk that has ended gives the same result with a larger step budget. -/
theorem walk_fuel_mono (C : Nat) (rnd : Nat → Nat) (m : Nat) :
    ∀ (fuel : Nat) (st : Model) (cur : Nat) (s : CStr) (pos : Nat),
      walk C rnd fuel st cur s pos ≠ .out_of_fuel →
      walk C rnd (fuel + m) st cur s pos = walk C rnd fuel st cur s pos ∧
      walk_tokens C rnd (fuel + m) st cur s pos = walk_tokens C rnd fuel st cur s pos := by
  intro fuel
  induction fuel with
  | zero => intro st cur s pos h; exact absurd rfl h
  | succ n ih =>
    intro st cur s pos h
    have e : n + 1 + m = (n + m) + 1 := by omega
    rw [e]
    rcases walk_step_cases C rnd n st cur s pos with
      ⟨h0, a1, a2⟩ | ⟨h0, hf, a1, a2⟩ | ⟨h0, hf, he, a1, a2⟩ | ⟨h0, hf, he, hi, a1, a2⟩ |
      ⟨h0, hf, he, id, st1, hi, a1, a2⟩
    · rw [a1, a2, walk_empty C rnd _ st cur s pos h0, walk_tokens_empty C rnd _ st cur s pos h0]
      exact ⟨rfl, rfl⟩
    · rw [a1, a2, walk_full C rnd _ st cur s pos _ h0 rfl hf,
        walk_tokens_full C rnd _ st cur s pos h0 hf]
      exact ⟨rfl, rfl⟩
    · rw [a1, a2, walk_terminator C rnd _ st cur s pos _ h0 rfl hf he,
        walk_tokens_terminator C rnd _ st cur s pos h0 hf he]
      exact ⟨rfl, rfl⟩
    · rw [a1, a2, walk_fatal C rnd _ st cur s pos _ h0 rfl hf he hi,
        walk_tokens_fatal C rnd _ st cur s pos h0 hf he hi]
      exact ⟨rfl, rfl⟩
    · rw [a1] at h
      obtain ⟨i1, i2⟩ := ih _ _ _ _ h
      rw [a1, a2, walk_continue C rnd _ st cur s pos _ id st1 h0 rfl hf he hi,
        walk_tokens_continue C rnd _ st cur s pos id st1 h0 hf he hi, i1, i2]
      exact ⟨rfl, rfl⟩

/-- The walk loop ends within `fuel` iterations as soon as `fuel ≥ 1` and
`fuel + strlen(sentence) + 1` reaches the value of `sentence_size - 1`. -/
theorem walk_terminates (C : Nat) (rnd : Nat → Nat) :
    ∀ (fuel : Nat) (st : Model) (cur : Nat) (s : CStr) (pos : Nat),
      1 ≤ fuel → size_pred C ≤ fuel + s.length + 1 →
      walk C rnd fuel st cur s pos ≠ .out_of_fuel := by
  intro fuel
  induction fuel with
  | zero => intro st cur s pos h; omega
  | succ n ih =>
    intro st cur s pos _ hP
    rcases walk_step_cases C rnd n st cur s pos with
      ⟨_, a1, _⟩ | ⟨_, _, a1, _⟩ | ⟨_, _, _, a1, _⟩ | ⟨_, _, _, _, a1, _⟩ |
      ⟨_, hfit, _, id, st1, _, a1, _⟩
    · rw [a1]; exact fun e => by cases e
    · rw [a1]; exact fun e => by cases e
    · rw [a1]; exact fun e => by cases e
    · rw [a1]; exact fun e => by cases e
    · rw [a1]
      apply ih
      · omega
      · simp only [List.length_append, List.length_singleton]; omega

/-- The sentence returned by the walk loop is the one it started from, or a
longer one whose length plus one is below the value of `sentence_size - 1`. -/
theorem walk_length (C : Nat) (rnd : Nat → Nat) :
    ∀ (fuel : Nat) (st : Model) (cur : Nat) (s : CStr) (pos : Nat) (r : CStr) (st1 : Model)
      (pos1 : Nat), walk C rnd fuel st cur s pos = .done r st1 pos1 →
      (r = s ∧ walk_tokens C rnd fuel st cur s pos = []) ∨
      (s.length < r.length ∧ r.length + 1 < size_pred C ∧
        walk_tokens C rnd fuel st cur s pos ≠ []) := by
  intro fuel
  induction fuel with
  | zero => intro st cur s pos r st1 pos1 h; simp [walk] at h
  | succ n ih =>
    intro st cur s pos r st1 pos1 h
    rcases walk_step_cases C rnd n st cur s pos with
      ⟨_, a1, a2⟩ | ⟨_, _, a1, a2⟩ | ⟨_, hfit, _, a1, a2⟩ | ⟨_, _, _, _, a1, _⟩ |
      ⟨_, hfit, _, id, st2, _, a1, a2⟩
    · rw [a1] at h; injection h with e1 _ _
      exact Or.inl ⟨e1.symm, a2⟩
    · rw [a1] at h; injection h with e1 _ _
      exact Or.inl ⟨e1.symm, a2⟩
    · rw [a1] at h; injection h with e1 _ _
      right
      rw [← e1, a2]
      simp only [List.length_append, List.length_singleton]
      exact ⟨by omega, by omega, by simp⟩
    · rw [a1] at h; cases h
    · rw [a1] at h
      right
      rw [a2]
      rcases ih _ _ _ _ _ _ _ h with ⟨e, _⟩ | ⟨e1, e2, _⟩
      · rw [e]
        simp only [List.length_append, List.length_singleton]
        exact ⟨by omega, by omega, by simp⟩
      · simp only [List.length_append, List.length_singleton] at e1
        exact ⟨by omega, e2, by simp⟩

/-- The sentence returned by the walk loop is the one it started from followed
by the appended tokens, each after one space. -/
theorem walk_sentence (C : Nat) (rnd : Nat → Nat) :
    ∀ (fuel : Nat) (st : Model) (cur : Nat) (s : CStr) (pos : Nat) (r : CStr) (st1 : Model)
      (pos1 : Nat), walk C rnd fuel st cur s pos = .done r st1 pos1 →
      r = s ++ ((walk_tokens C rnd fuel st cur s pos).map (fun x => [' '] ++ x)).flatten := by
  intro fuel
  induction fuel with
  | zero => intro st cur s pos r st1 pos1 h; simp [walk] at h
  | succ n ih =>
    intro st cur s pos r st1 pos1 h
    rcases walk_step_cases C rnd n st cur s pos with
      ⟨_, a1, a2⟩ | ⟨_, _, a1, a2⟩ | ⟨_, _, _, a1, a2⟩ | ⟨_, _, _, _, a1, _⟩ |
      ⟨_, _, _, id, st2, _, a1, a2⟩
    · rw [a1] at h; injection h with e1 _ _
      rw [a2, ← e1]; simp
    · rw [a1] at h; injection h with e1 _ _
      rw [a2, ← e1]; simp
    · rw [a1] at h; injection h with e1 _ _
      rw [a2, ← e1]; simp
    · rw [a1] at h; cases h
    · rw [a1] at h
      rw [a2, ih _ _ _ _ _ _ _ h]
      simp

/-- No token appended by the walk loop before the last one ends a sentence. -/
theorem walk_tokens_dropLast (C : Nat) (rnd : Nat → Nat) :
    ∀ (fuel : Nat) (st : Model) (cur : Nat) (s : CStr) (pos : Nat),
      ∀ t ∈ (walk_tokens C rnd fuel st cur s pos).dropLast, token_ends_a_sentence t = false := by
  intro fuel
  induction fuel with
  | zero => intro st cur s pos t ht; simp [walk_tokens] at ht
  | succ n ih =>
    intro st cur s pos t ht
    rcases walk_step_cases C rnd n st cur s pos with
      ⟨_, _, a2⟩ | ⟨_, _, _, a2⟩ | ⟨_, _, _, _, a2⟩ | ⟨_, _, _, _, _, a2⟩ |
      ⟨_, _, hend, id, st2, _, _, a2⟩
    · rw [a2] at ht; simp at ht
    · rw [a2] at ht; simp at ht
    · rw [a2] at ht; simp at ht
    · rw [a2] at ht; simp at ht
    · rw [a2] at ht
      cases hw : walk_tokens C rnd n st2 id
          (s ++ [' '] ++ (st.succs cur).getD (rnd pos % (st.succs cur).length) []) (pos + 1) with
      | nil => rw [hw] at ht; simp at ht
      | cons y ys =>
        rw [hw, List.dropLast_cons₂] at ht
        rcases List.mem_cons.mp ht with e | e
        · rw [e]; exact hend
        · exact ih st2 id _ _ t (by rw [hw]; exact e)

theorem size_pred_le (C : Nat) (h : 1 ≤ C) : size_pred C ≤ C - 1 := by
  unfold size_pred
  omega

theorem size_pred_eq (C : Nat) (h : 1 ≤ C) (hlt : C < 2 ^ 64) : size_pred C = C - 1 := by
  unfold size_pred
  omega

/-- On a model whose successor entries are registered, the walk loop never
exits through `token_id` and never changes the model. -/
theorem walk_result (C : Nat) (rnd : Nat → Nat) (st : Model)
    (hs : ∀ i, ∀ x ∈ st.succs i, x ∈ st.tokens) :
    ∀ (fuel cur : Nat) (s : CStr) (pos : Nat),
      walk C rnd fuel st cur s pos = .out_of_fuel ∨
      ∃ r pos1, walk C rnd fuel st cur s pos = .done r st pos1 := by
  intro fuel
  induction fuel with
  | zero => intro cur s pos; exact Or.inl rfl
  | succ n ih =>
    intro cur s pos
    rcases walk_step_cases C rnd n st cur s pos with
      ⟨_, a1, _⟩ | ⟨_, _, a1, _⟩ | ⟨_, _, _, a1, _⟩ | ⟨h0, _, _, hid, _, _⟩ |
      ⟨h0, _, _, id, st1, hid, a1, _⟩
    · exact Or.inr ⟨_, _, a1⟩
    · exact Or.inr ⟨_, _, a1⟩
    · exact Or.inr ⟨_, _, a1⟩
    · have hmem := hs cur _ (getD_mem_of_ne_nil (st.succs cur) (rnd pos) h0)
      rw [token_id_of_mem st _ hmem] at hid
      cases hid
    · have hmem := hs cur _ (getD_mem_of_ne_nil (st.succs cur) (rnd pos) h0)
      rw [token_id_of_mem st _ hmem] at hid
      simp only [Option.some.injEq, Prod.mk.injEq] at hid
      rw [a1, ← hid.2]
      exact ih _ _ _

/-- With a non-empty registry without any uppercase-initial token the
selection loop is still running after any number of iterations. -/
theorem random_token_id_never (st : Model) (rnd : Nat → Nat) (hne : st.tokens ≠ [])
    (hno : ∀ t ∈ st.tokens, starts_upper t = false) :
    ∀ (fuel pos : Nat), random_token_id_that_starts_a_sentence st rnd fuel pos = some none := by
  intro fuel
  have hlen : st.tokens.length ≠ 0 := fun e => hne (List.length_eq_zero.mp e)
  induction fuel with
  | zero => intro pos; rfl
  | succ n ih =>
    intro pos
    have hlt : rnd pos % st.tokens.length < st.tokens.length :=
      Nat.mod_lt _ (Nat.pos_of_ne_zero hlen)
    have hmem : st.tokens.getD (rnd pos % st.tokens.length) [] ∈ st.tokens := by
      rw [List.getD_eq_getElem?_getD, List.getElem?_eq_getElem hlt]
      exact List.getElem_mem _
    have := hno _ hmem
    simp only [random_token_id_that_starts_a_sentence, hlen, if_false, this,
      Bool.false_eq_true]
    exact ih (pos + 1)

/-- Tokenization of a text whose tokens are `ts` builds `model_of ts`. -/
theorem tokenize_eq_model_of (str : List Char) (ts : List CStr)
    (h : strtok_all main_delimiters (str.length + 1) str = ts)
    (hle : ts.length ≤ MAX_WORD_COUNT) :
    tokenize_and_fill_succs Model.empty main_delimiters str = some (model_of ts) := by
  unfold tokenize_and_fill_succs
  rw [h, tokenize_loop_eq, if_pos]
  rw [registry_of_length]
  exact le_trans (List.toFinset_card_le _) hle

/-- C16 (as stated, refuted). With an empty registry, which is what tokenizing
an empty text builds, no token has an uppercase first character, yet
`random_token_id_that_starts_a_sentence` does not loop: its first iteration
evaluates `rand() % tokens_size` with `tokens_size == 0`, which is undefined. -/
theorem empty_registry_selection_undefined :
    tokenize_and_fill_succs Model.empty main_delimiters [] = some Model.empty ∧
    (∀ t ∈ Model.empty.tokens, starts_upper t = false) ∧
    ∀ (rnd : Nat → Nat) (fuel : Nat),
      random_token_id_that_starts_a_sentence Model.empty rnd (fuel + 1) 0 = none ∧
      random_token_id_that_starts_a_sentence Model.empty rnd (fuel + 1) 0 ≠ some none ∧
      generate_sentence Model.empty [] 1000 rnd (fuel + 1) = .undefined := by
  refine ⟨rfl, by intro t ht; simp [Model.empty] at ht, ?_⟩
  intro rnd fuel
  have h : random_token_id_that_starts_a_sentence Model.empty rnd (fuel + 1) 0 = none := by
    simp [random_token_id_that_starts_a_sentence, Model.empty]
  refine ⟨h, by rw [h]; simp, ?_⟩
  simp only [generate_sentence, h]

/-- C16 (amended). If the registry is not empty and no registered token has an
uppercase first character, `random_token_id_that_starts_a_sentence` never
returns: for every sequence of random values and from every position in it,
the loop is still running after any number of iterations, and so is
`generate_sentence`. -/
theorem start_selection_loops_forever (st : Model) (hne : st.tokens ≠ [])
    (hno : ∀ t ∈ st.tokens, starts_upper t = false) (rnd : Nat → Nat) (fuel pos : Nat) :
    random_token_id_that_starts_a_sentence st rnd fuel pos = some none ∧
    ∀ (sentence : CStr) (C : Nat), generate_sentence st sentence C rnd fuel = .out_of_fuel := by
  refine ⟨random_token_id_never st rnd hne hno fuel pos, ?_⟩
  intro sentence C
  simp only [generate_sentence, random_token_id_never st rnd hne hno fuel 0]

/-- C16 (amended) on the model of the corpus "hello world". -/
theorem start_selection_loops_forever_witness :
    (model_of lower_tokens).tokens ≠ [] ∧
    (∀ t ∈ (model_of lower_tokens).tokens, starts_upper t = false) ∧
    (random_token_id_that_starts_a_sentence (model_of lower_tokens) (fun n => n) 100 0
        = some none ∧
      ∀ (sentence : CStr) (C : Nat),
        generate_sentence (model_of lower_tokens) sentence C (fun n => n) 100 = .out_of_fuel) :=
  ⟨by decide, by decide,
    start_selection_loops_forever (model_of lower_tokens) (by decide) (by decide)
      (fun n => n) 100 0⟩

/-- C12 (as stated, refuted). On the model of the example corpus with capacity
13, the walk step from "Victor" (length 6) samples "said" (length 4): the
length after appending a space and the token would be 11, which is below
`C - 1 = 12`, yet the step stops without appending and "Victor" is returned. -/
theorem walk_threshold_counterexample :
    "Victor".toList.length = 6 ∧
    ((model_of victor_tokens).succs 0).getD
      ((fun _ => 0) 1 % ((model_of victor_tokens).succs 0).length) [] = "said".toList ∧
    "said".toList.length = 4 ∧ 6 + 1 + 4 < 13 - 1 ∧
    walk 13 (fun _ => 0) 1 (model_of victor_tokens) 0 "Victor".toList 1
      = .done "Victor".toList (model_of victor_tokens) 2 ∧
    generate_sentence (model_of victor_tokens) [] 13 (fun _ => 0) 2
      = .done "Victor".toList (model_of victor_tokens) 2 :=
  ⟨rfl, by decide, rfl, by decide, rfl, rfl⟩

/-- C12 (amended). In every walk step with a non-empty successor row, current
sentence length `L`, sampled successor of length `T` and capacity `C`, the step
stops without appending if and only if `L + T + 2`, one more than the length
the sentence would have after appending a space and the token, meets or
exceeds the `size_t` value of `C - 1`; otherwise the space and the token are
appended, and the step returns when the token ends a sentence and goes on from
the id that `token_id` returns when it does not. -/
theorem walk_step_threshold (C : Nat) (rnd : Nat → Nat) (fuel : Nat) (st : Model)
    (cur : Nat) (s : CStr) (pos : Nat) (h0 : (st.succs cur).length ≠ 0) :
    (walk C rnd (fuel + 1) st cur s pos = .done s st (pos + 1) ↔
      s.length + ((st.succs cur).getD (rnd pos % (st.succs cur).length) []).length + 2
        ≥ size_pred C) ∧
    (s.length + ((st.succs cur).getD (rnd pos % (st.succs cur).length) []).length + 2
        < size_pred C →
      walk_tokens C rnd (fuel + 1) st cur s pos ≠ [] ∧
      (token_ends_a_sentence ((st.succs cur).getD (rnd pos % (st.succs cur).length) []) = true →
        walk C rnd (fuel + 1) st cur s pos
          = .done (s ++ [' '] ++ (st.succs cur).getD (rnd pos % (st.succs cur).length) [])
              st (pos + 1)) ∧
      (token_ends_a_sentence ((st.succs cur).getD (rnd pos % (st.succs cur).length) []) = false →
        ∀ id st1,
          token_id st ((st.succs cur).getD (rnd pos % (st.succs cur).length) [])
            = some (id, st1) →
          walk C rnd (fuel + 1) st cur s pos
            = walk C rnd fuel st1 id
                (s ++ [' '] ++ (st.succs cur).getD (rnd pos % (st.succs cur).length) [])
                (pos + 1))) ∧
    (1 ≤ C → C < 2 ^ 64 → size_pred C = C - 1) := by
  refine ⟨⟨?_, ?_⟩, ?_, size_pred_eq C⟩
  · intro h
    by_contra hnot
    have hfit := Nat.not_le.mp hnot
    rcases walk_length C rnd (fuel + 1) st cur s pos s st (pos + 1) h with ⟨_, e⟩ | ⟨e, _⟩
    · rcases walk_step_cases C rnd fuel st cur s pos with
        ⟨c0, _⟩ | ⟨_, cf, _⟩ | ⟨_, _, _, _, a2⟩ | ⟨_, _, _, _, _, a2⟩ |
        ⟨_, _, _, id, st1, _, _, a2⟩
      · exact h0 c0
      · exact hnot cf
      · rw [a2] at e; cases e
      · rw [a2] at e; cases e
      · rw [a2] at e; cases e
    · exact Nat.lt_irrefl _ e
  · intro hfull
    exact walk_full C rnd fuel st cur s pos _ h0 rfl hfull
  · intro hfit
    refine ⟨?_, ?_, ?_⟩
    · rcases walk_step_cases C rnd fuel st cur s pos with
        ⟨c0, _⟩ | ⟨_, cf, _⟩ | ⟨_, _, _, _, a2⟩ | ⟨_, _, _, _, _, a2⟩ |
        ⟨_, _, _, id, st1, _, _, a2⟩
      · exact absurd c0 h0
      · exact absurd cf (Nat.not_le.mpr hfit)
      · rw [a2]; simp
      · rw [a2]; simp
      · rw [a2]; simp
    · intro hend
      exact walk_terminator C rnd fuel st cur s pos _ h0 rfl hfit hend
    · intro hend id st1 hid
      exact walk_continue C rnd fuel st cur s pos _ id st1 h0 rfl hfit hend hid

/-- C12 (amended) at the step of the counterexample and at capacity 14, where
"said" is appended to "Victor". -/
theorem walk_step_threshold_witness :
    ((model_of victor_tokens).succs 0).length ≠ 0 ∧
    walk 14 (fun _ => 0) 1 (model_of victor_tokens) 0 "Victor".toList 1
      = walk 14 (fun _ => 0) 0 (model_of victor_tokens) 1
          ("Victor".toList ++ [' '] ++ "said".toList) 2 :=
  ⟨by decide,
    (walk_step_threshold 14 (fun _ => 0) 0 (model_of victor_tokens) 0 "Victor".toList 1
      (by decide)).2.1 (by decide) |>.2.2 (by decide) 1 (model_of victor_tokens) rfl⟩

/-- C20. Once a start token has been selected, the walk loop terminates: for
every model, every capacity `C ≥ 1` and every sequence of random values, an
iteration that continues (one after which a budget of a single iteration is
used up) goes on with a strictly longer sentence whose length is below
`C - 1`, and the loop ends within `C` iterations: with a budget of `C`
iterations it is not still running, and a larger budget changes nothing. -/
theorem walk_iteration_bound (C : Nat) (hC : 1 ≤ C) (rnd : Nat → Nat) (st : Model)
    (cur : Nat) (s : CStr) (pos : Nat) :
    walk C rnd C st cur s pos ≠ .out_of_fuel ∧
    (∀ m, walk C rnd (C + m) st cur s pos = walk C rnd C st cur s pos) ∧
    (∀ (st0 : Model) (cur0 : Nat) (s0 : CStr) (pos0 : Nat),
      walk C rnd 1 st0 cur0 s0 pos0 = .out_of_fuel →
      ∃ id st1 next,
        (∀ fuel, walk C rnd (fuel + 1) st0 cur0 s0 pos0
          = walk C rnd fuel st1 id (s0 ++ [' '] ++ next) (pos0 + 1)) ∧
        s0.length < (s0 ++ [' '] ++ next).length ∧
        (s0 ++ [' '] ++ next).length < C - 1) := by
  have hP := size_pred_le C hC
  have hterm := walk_terminates C rnd C st cur s pos hC (by omega)
  refine ⟨hterm, fun m => (walk_fuel_mono C rnd m C st cur s pos hterm).1, ?_⟩
  intro st0 cur0 s0 pos0 h1
  rcases walk_step_cases C rnd 0 st0 cur0 s0 pos0 with
    ⟨_, a1, _⟩ | ⟨_, _, a1, _⟩ | ⟨_, _, _, a1, _⟩ | ⟨_, _, _, _, a1, _⟩ |
    ⟨c0, cf, ce, id, st1, ci, _, _⟩
  · rw [a1] at h1; cases h1
  · rw [a1] at h1; cases h1
  · rw [a1] at h1; cases h1
  · rw [a1] at h1; cases h1
  · refine ⟨id, st1, _, fun fuel => walk_continue C rnd fuel st0 cur0 s0 pos0 _ id st1 c0 rfl cf ce ci,
      ?_, ?_⟩
    · simp only [List.length_append, List.length_singleton]; omega
    · simp only [List.length_append, List.length_singleton]; omega

/-- C20 on the model of the example corpus with capacity 1000. -/
theorem walk_iteration_bound_witness :
    1 ≤ 1000 ∧
    walk 1000 (fun _ => 0) 1000 (model_of victor_tokens) 0 "Victor".toList 1
      ≠ .out_of_fuel :=
  ⟨by decide,
    (walk_iteration_bound 1000 (by decide) (fun _ => 0) (model_of victor_tokens) 0
      "Victor".toList 1).1⟩

/-! ## Generated sentences as token sequences -/

/-- A call of `generate_sentence` that returns has selected a start token; the
sentence is that token alone when it ends a sentence, and otherwise what the
walk loop returns from it. -/
theorem generate_sentence_done (st : Model) (sentence : CStr) (C : Nat) (rnd : Nat → Nat)
    (fuel : Nat) (r : CStr) (st1 : Model) (pos1 : Nat)
    (h : generate_sentence st sentence C rnd fuel = .done r st1 pos1) :
    ∃ id pos, random_token_id_that_starts_a_sentence st rnd fuel 0 = some (some (id, pos)) ∧
      id < st.tokens.length ∧ starts_upper (st.tokens.getD id []) = true ∧
      ((token_ends_a_sentence (st.tokens.getD id []) = true ∧
          r = sentence ++ st.tokens.getD id [] ∧ st1 = st ∧
          sentence_tokens st sentence C rnd fuel = [st.tokens.getD id []]) ∨
        (token_ends_a_sentence (st.tokens.getD id []) = false ∧
          walk C rnd fuel st id (sentence ++ st.tokens.getD id []) pos = .done r st1 pos1 ∧
          sentence_tokens st sentence C rnd fuel
            = st.tokens.getD id [] ::
              walk_tokens C rnd fuel st id (sentence ++ st.tokens.getD id []) pos)) := by
  unfold generate_sentence at h
  cases hstart : random_token_id_that_starts_a_sentence st rnd fuel 0 with
  | none => rw [hstart] at h; cases h
  | some o =>
    cases o with
    | none => rw [hstart] at h; cases h
    | some pr =>
      obtain ⟨id, pos⟩ := pr
      rw [hstart] at h
      obtain ⟨hid, hup⟩ := random_token_id_some st rnd fuel 0 id pos hstart
      refine ⟨id, pos, rfl, hid, hup, ?_⟩
      simp only [generate_from] at h
      cases hend : token_ends_a_sentence (st.tokens.getD id []) with
      | true =>
        rw [hend] at h
        simp only [if_true] at h
        injection h with e1 e2 _
        exact Or.inl ⟨rfl, e1.symm, e2.symm, by simp only [sentence_tokens, hstart, hend, if_true]⟩
      | false =>
        rw [hend] at h
        simp only [Bool.false_eq_true, if_false] at h
        exact Or.inr ⟨rfl, h,
          by simp only [sentence_tokens, hstart, hend, Bool.false_eq_true, if_false]⟩

theorem mem_dropLast_of_getElem? (l : List CStr) (i : Nat) (t : CStr) (h : l[i]? = some t)
    (hi : i + 1 < l.length) : t ∈ l.dropLast := by
  rw [List.dropLast_eq_take]
  have : (l.take (l.length - 1))[i]? = some t := by
    rw [List.getElem?_take_of_lt (by omega)]; exact h
  exact List.getElem?_mem this

/-- C13. Generation stops at the first terminator: in every sentence returned
by `generate_sentence` into an empty buffer, which is the appended tokens
joined by single spaces, no token other than the last one ends with '.', '?'
or '!'; if the start token ends with a terminator the sentence is exactly that
token; and a token of the sentence that ends with a terminator is its last
token. -/
theorem stops_at_first_terminator (st : Model) (C : Nat) (rnd : Nat → Nat) (fuel : Nat)
    (r : CStr) (st1 : Model) (pos1 : Nat)
    (h : generate_sentence st [] C rnd fuel = .done r st1 pos1) :
    ∃ first rest, sentence_tokens st [] C rnd fuel = first :: rest ∧
      r = List.intercalate [' '] (first :: rest) ∧
      (∀ t ∈ (first :: rest).dropLast, token_ends_a_sentence t = false) ∧
      (token_ends_a_sentence first = true → rest = [] ∧ r = first) ∧
      (∀ i t, (first :: rest)[i]? = some t → token_ends_a_sentence t = true →
        i + 1 = (first :: rest).length) := by
  obtain ⟨id, pos, _, _, _, hcase⟩ := generate_sentence_done st [] C rnd fuel r st1 pos1 h
  have key : ∃ first rest, sentence_tokens st [] C rnd fuel = first :: rest ∧
      r = List.intercalate [' '] (first :: rest) ∧
      (∀ t ∈ (first :: rest).dropLast, token_ends_a_sentence t = false) ∧
      (token_ends_a_sentence first = true → rest = [] ∧ r = first) := by
    rcases hcase with ⟨_, hr, _, htok⟩ | ⟨hend, hw, htok⟩
    · refine ⟨_, [], htok, ?_, by simp, fun _ => ⟨rfl, by simpa using hr⟩⟩
      rw [hr]; simp [List.intercalate]
    · refine ⟨_, _, htok, ?_, ?_, ?_⟩
      · rw [intercalate_cons_eq]
        simpa using walk_sentence C rnd fuel st id _ pos r st1 pos1 hw
      · intro t ht
        cases hwt : walk_tokens C rnd fuel st id ([] ++ st.tokens.getD id []) pos with
        | nil => rw [hwt] at ht; simp at ht
        | cons y ys =>
          rw [hwt, List.dropLast_cons₂] at ht
          rcases List.mem_cons.mp ht with e | e
          · rw [e]; exact hend
          · exact walk_tokens_dropLast C rnd fuel st id _ pos t (by rw [hwt]; exact e)
      · intro he; rw [hend] at he; cases he
  obtain ⟨first, rest, k1, k2, k3, k4⟩ := key
  refine ⟨first, rest, k1, k2, k3, k4, ?_⟩
  intro i t hi ht
  by_contra hne
  have hlt : i < (first :: rest).length := (List.getElem?_eq_some.mp hi).1
  have := k3 t (mem_dropLast_of_getElem? _ i t hi (by omega))
  rw [this] at ht; cases ht

/-- C13 on the sentence "Victor said hello." of the example corpus. -/
theorem stops_at_first_terminator_witness :
    generate_sentence (model_of victor_tokens) [] 1000 (fun _ => 0) 2
      = .done "Victor said hello.".toList (model_of victor_tokens) 3 ∧
    ∃ first rest,
      sentence_tokens (model_of victor_tokens) [] 1000 (fun _ => 0) 2 = first :: rest ∧
      "Victor said hello.".toList = List.intercalate [' '] (first :: rest) ∧
      (∀ t ∈ (first :: rest).dropLast, token_ends_a_sentence t = false) ∧
      (token_ends_a_sentence first = true → rest = [] ∧ "Victor said hello.".toList = first) ∧
      (∀ i t, (first :: rest)[i]? = some t → token_ends_a_sentence t = true →
        i + 1 = (first :: rest).length) :=
  ⟨victor_generate,
    stops_at_first_terminator (model_of victor_tokens) 1000 (fun _ => 0) 2 _ _ _ victor_generate⟩

/-- C14. If the selected start token does not end with a terminator and its
successor row is empty, `generate_sentence` returns normally, for every
sequence of random values, with the sentence equal to exactly that token: the
first test of the walk loop is a Done transition. -/
theorem empty_successors_done (st : Model) (id pos C : Nat) (rnd : Nat → Nat) (fuel : Nat)
    (hf : 1 ≤ fuel)
    (hend : token_ends_a_sentence (st.tokens.getD id []) = false)
    (hrow : (st.succs id).length = 0) :
    generate_from st [] C rnd fuel id pos = .done (st.tokens.getD id []) st pos ∧
    (random_token_id_that_starts_a_sentence st rnd fuel 0 = some (some (id, pos)) →
      generate_sentence st [] C rnd fuel = .done (st.tokens.getD id []) st pos ∧
      sentence_tokens st [] C rnd fuel = [st.tokens.getD id []]) := by
  obtain ⟨f, rfl⟩ : ∃ f, fuel = f + 1 := ⟨fuel - 1, by omega⟩
  have hg : generate_from st [] C rnd (f + 1) id pos = .done (st.tokens.getD id []) st pos := by
    simp only [generate_from, hend, Bool.false_eq_true, if_false, List.nil_append]
    exact walk_empty C rnd f st id _ pos hrow
  refine ⟨hg, ?_⟩
  intro hs
  refine ⟨by simp only [generate_sentence, hs, hg], ?_⟩
  simp only [sentence_tokens, hs, hend, Bool.false_eq_true, if_false, List.nil_append,
    walk_tokens_empty C rnd f st id _ pos hrow]

/-- C14 on the model of the one-token corpus "Hello". -/
theorem empty_successors_done_witness :
    tokenize_and_fill_succs Model.empty main_delimiters "Hello".toList
      = some (model_of ["Hello".toList]) ∧
    1 ≤ 1 ∧ token_ends_a_sentence ((model_of ["Hello".toList]).tokens.getD 0 []) = false ∧
    ((model_of ["Hello".toList]).succs 0).length = 0 ∧
    generate_sentence (model_of ["Hello".toList]) [] 1000 (fun n => n) 1
      = .done "Hello".toList (model_of ["Hello".toList]) 1 :=
  ⟨tokenize_eq_model_of _ _ (by decide) (by decide), Nat.le_refl 1, by decide, by decide,
    ((empty_successors_done (model_of ["Hello".toList]) 0 1 1000 (fun n => n) 1 (Nat.le_refl 1)
      (by decide) (by decide)).2 (by decide)).1⟩

/-- C19. Conditional buffer bound: with an initially empty buffer and capacity
`C ≥ 1`, the sentence returned by `generate_sentence` has length at most the
maximum of the length of the selected start token and `C - 3`; so when the
start token is shorter than `C` the sentence is shorter than `C`, and a
sentence of two or more tokens has length at most `C - 3`. -/
theorem sentence_length_bound (st : Model) (C : Nat) (hC : 1 ≤ C) (rnd : Nat → Nat)
    (fuel : Nat) (r : CStr) (st1 : Model) (pos1 : Nat)
    (h : generate_sentence st [] C rnd fuel = .done r st1 pos1) :
    ∃ id pos first rest,
      random_token_id_that_starts_a_sentence st rnd fuel 0 = some (some (id, pos)) ∧
      first = st.tokens.getD id [] ∧
      sentence_tokens st [] C rnd fuel = first :: rest ∧
      r.length ≤ max first.length (C - 3) ∧
      (first.length < C → r.length < C) ∧
      (rest ≠ [] → r.length ≤ C - 3 ∧ 4 ≤ C) ∧
      (rest = [] → r = first) := by
  obtain ⟨id, pos, hstart, _, _, hcase⟩ := generate_sentence_done st [] C rnd fuel r st1 pos1 h
  have hP := size_pred_le C hC
  rcases hcase with ⟨_, hr, _, htok⟩ | ⟨_, hw, htok⟩
  · have hr1 : r = st.tokens.getD id [] := by simpa using hr
    refine ⟨id, pos, _, [], hstart, rfl, htok, ?_, ?_, ?_, fun _ => hr1⟩
    · rw [hr1]; exact le_max_left _ _
    · intro hlt; rw [hr1]; exact hlt
    · intro hne; exact absurd rfl hne
  · refine ⟨id, pos, _, _, hstart, rfl, htok, ?_⟩
    rcases walk_length C rnd fuel st id _ pos r st1 pos1 hw with ⟨e1, e2⟩ | ⟨e1, e2, e3⟩
    · have hr1 : r = st.tokens.getD id [] := by simpa using e1
      refine ⟨?_, ?_, ?_, fun _ => hr1⟩
      · rw [hr1]; exact le_max_left _ _
      · intro hlt; rw [hr1]; exact hlt
      · intro hne; exact absurd e2 hne
    · have hle : r.length ≤ C - 3 := by omega
      refine ⟨le_trans hle (le_max_right _ _), fun _ => by omega, fun _ => ⟨hle, by omega⟩,
        fun hnil => absurd hnil e3⟩

/-- C19 on the sentence "Victor said hello." with capacity 1000. -/
theorem sentence_length_bound_witness :
    1 ≤ 1000 ∧
    generate_sentence (model_of victor_tokens) [] 1000 (fun _ => 0) 2
      = .done "Victor said hello.".toList (model_of victor_tokens) 3 ∧
    ∃ id pos first rest,
      random_token_id_that_starts_a_sentence (model_of victor_tokens) (fun _ => 0) 2 0
        = some (some (id, pos)) ∧
      first = (model_of victor_tokens).tokens.getD id [] ∧
      sentence_tokens (model_of victor_tokens) [] 1000 (fun _ => 0) 2 = first :: rest ∧
      "Victor said hello.".toList.length ≤ max first.length (1000 - 3) ∧
      (first.length < 1000 → "Victor said hello.".toList.length < 1000) ∧
      (rest ≠ [] → "Victor said hello.".toList.length ≤ 1000 - 3 ∧ 4 ≤ 1000) ∧
      (rest = [] → "Victor said hello.".toList = first) :=
  ⟨by decide, victor_generate,
    sentence_length_bound (model_of victor_tokens) 1000 (by decide) (fun _ => 0) 2 _ _ _
      victor_generate⟩

/-! ## The model during generation -/

/-- C17. The model is read-only after tokenization: for every model built by
`tokenize_and_fill_succs`, every buffer content and capacity and every
sequence of random values, `generate_sentence` never takes the fatal
registry-capacity exit and, when it returns, leaves `tokens` and `succs` as
they were; the `token_id` lookup of any successor entry finds the one index
`j` with `tokens[j]` equal to it and changes nothing. -/
theorem model_read_only (delimiters : CStr) (str : List Char) (st : Model)
    (h : tokenize_and_fill_succs Model.empty delimiters str = some st)
    (sentence : CStr) (C : Nat) (rnd : Nat → Nat) (fuel : Nat) :
    generate_sentence st sentence C rnd fuel ≠ .fatal ∧
    (∀ r st1 pos, generate_sentence st sentence C rnd fuel = .done r st1 pos →
      st1 = st ∧ st1.tokens = st.tokens ∧ st1.succs = st.succs) ∧
    (∀ i, ∀ x ∈ st.succs i, ∃ j, st.tokens[j]? = some x ∧ token_id st x = some (j, st) ∧
      ∀ j2, st.tokens[j2]? = some x → j2 = j) := by
  have hw := wellFormed_tokenize delimiters str st h
  have key : generate_sentence st sentence C rnd fuel = .undefined ∨
      generate_sentence st sentence C rnd fuel = .out_of_fuel ∨
      ∃ r pos, generate_sentence st sentence C rnd fuel = .done r st pos := by
    unfold generate_sentence
    cases hstart : random_token_id_that_starts_a_sentence st rnd fuel 0 with
    | none => exact Or.inl rfl
    | some o =>
      cases o with
      | none => exact Or.inr (Or.inl rfl)
      | some pr =>
        obtain ⟨id, pos⟩ := pr
        right
        simp only [generate_from]
        split
        · exact Or.inr ⟨_, _, rfl⟩
        · exact walk_result C rnd st hw.succs_mem fuel id _ pos
  refine ⟨?_, ?_, ?_⟩
  · rcases key with e | e | ⟨r, pos, e⟩ <;> rw [e] <;> simp
  · intro r st1 pos hd
    rcases key with e | e | ⟨r2, pos2, e⟩
    · rw [e] at hd; cases hd
    · rw [e] at hd; cases hd
    · rw [e] at hd
      injection hd with _ e2 _
      subst e2
      exact ⟨rfl, rfl, rfl⟩
  · intro i x hx
    have hm := hw.succs_mem i x hx
    refine ⟨first_index x st.tokens, first_index_get? hm, token_id_of_mem st x hm, ?_⟩
    intro j2 hj2
    exact (first_index_of_nodup hw.nodup hj2).symm

/-- C17 on the model of the example corpus. -/
theorem model_read_only_witness :
    tokenize_and_fill_succs Model.empty main_delimiters victor_corpus
      = some (model_of victor_tokens) ∧
    generate_sentence (model_of victor_tokens) [] 1000 (fun _ => 0) 2 ≠ .fatal ∧
    (∀ r st1 pos, generate_sentence (model_of victor_tokens) [] 1000 (fun _ => 0) 2
        = .done r st1 pos →
      st1 = model_of victor_tokens ∧ st1.tokens = (model_of victor_tokens).tokens ∧
        st1.succs = (model_of victor_tokens).succs) :=
  ⟨tokenize_victor,
    (model_read_only main_delimiters victor_corpus (model_of victor_tokens) tokenize_victor
      [] 1000 (fun _ => 0) 2).1,
    (model_read_only main_delimiters victor_corpus (model_of victor_tokens) tokenize_victor
      [] 1000 (fun _ => 0) 2).2.1⟩

/-! ## Adjacent pairs of a generated sentence -/

theorem mem_followers_adjacent (A x : CStr) (ts : List CStr) (h : x ∈ followers A ts) :
    ∃ i, ts[i]? = some A ∧ ts[i + 1]? = some x := by
  induction ts with
  | nil => simp [followers] at h
  | cons a l ih =>
    cases l with
    | nil => simp [followers] at h
    | cons b rest =>
      rw [followers_cons_cons] at h
      rcases List.mem_append.mp h with h1 | h1
      · by_cases ha : a = A
        · rw [if_pos ha] at h1
          have : x = b := by simpa using h1
          exact ⟨0, by simp [ha], by simp [this]⟩
        · rw [if_neg ha] at h1; simp at h1
      · obtain ⟨i, h2, h3⟩ := ih h1
        exact ⟨i + 1, by simpa using h2, by simpa using h3⟩

/-- The tokens appended by the walk loop form a chain for any relation that
holds between a registered token and the entries of its successor row. -/
theorem walk_tokens_chain (C : Nat) (rnd : Nat → Nat) (st : Model)
    (hs : ∀ i, ∀ x ∈ st.succs i, x ∈ st.tokens) (R : CStr → CStr → Prop)
    (hR : ∀ i a, st.tokens[i]? = some a → ∀ x ∈ st.succs i, R a x) :
    ∀ (fuel cur : Nat) (s : CStr) (pos : Nat) (prev : CStr), st.tokens[cur]? = some prev →
      List.Chain' R (prev :: walk_tokens C rnd fuel st cur s pos) := by
  intro fuel
  induction fuel with
  | zero => intro cur s pos prev _; simp [walk_tokens]
  | succ n ih =>
    intro cur s pos prev hcur
    rcases walk_step_cases C rnd n st cur s pos with
      ⟨_, _, a2⟩ | ⟨_, _, _, a2⟩ | ⟨h0, _, _, _, a2⟩ | ⟨h0, _, _, _, _, a2⟩ |
      ⟨h0, _, _, id, st1, hid, _, a2⟩
    · rw [a2]; exact List.chain'_singleton _
    · rw [a2]; exact List.chain'_singleton _
    · rw [a2]
      have hmem := getD_mem_of_ne_nil (st.succs cur) (rnd pos) h0
      exact List.chain'_cons.mpr ⟨hR cur prev hcur _ hmem, List.chain'_singleton _⟩
    · rw [a2]
      have hmem := getD_mem_of_ne_nil (st.succs cur) (rnd pos) h0
      exact List.chain'_cons.mpr ⟨hR cur prev hcur _ hmem, List.chain'_singleton _⟩
    · rw [a2]
      have hmem := getD_mem_of_ne_nil (st.succs cur) (rnd pos) h0
      have hreg := hs cur _ hmem
      rw [token_id_of_mem st _ hreg] at hid
      simp only [Option.some.injEq, Prod.mk.injEq] at hid
      obtain ⟨e1, e2⟩ := hid
      subst e1; subst e2
      exact List.chain'_cons.mpr ⟨hR cur prev hcur _ hmem, ih _ _ _ _ (first_index_get? hreg)⟩

theorem chain_getElem? (R : CStr → CStr → Prop) (l : List CStr) (h : List.Chain' R l) :
    ∀ (j : Nat) (a b : CStr), l[j]? = some a → l[j + 1]? = some b → R a b := by
  induction l with
  | nil => intro j a b ha; simp at ha
  | cons x l ih =>
    intro j a b ha hb
    cases j with
    | zero =>
      have hx : x = a := by simpa using ha
      cases l with
      | nil => simp at hb
      | cons y l =>
        have hy : y = b := by simpa using hb
        rw [← hx, ← hy]
        exact (List.chain'_cons.mp h).1
    | succ j =>
      exact ih h.tail j a b (by simpa using ha) (by simpa using hb)

/-- C18. Every adjacent pair of tokens in a generated sentence occurred
adjacently in the source: for every model built by tokenization from a token
sequence `ts` and the tokens `u_0 u_1 … u_k` that `generate_sentence` appends
to an empty buffer (whose space-joined string is the sentence it returns), for
each `j < k` there is an index `i` with `ts[i] = u_j` and `ts[i+1] = u_{j+1}`. -/
theorem adjacent_pairs_from_source (ts : List CStr) (st : Model)
    (h : tokenize_loop Model.empty none ts = some st)
    (C : Nat) (rnd : Nat → Nat) (fuel : Nat) :
    (∀ (j : Nat) (a b : CStr), (sentence_tokens st [] C rnd fuel)[j]? = some a →
      (sentence_tokens st [] C rnd fuel)[j + 1]? = some b →
      ∃ i, ts[i]? = some a ∧ ts[i + 1]? = some b) ∧
    (∀ r st1 pos, generate_sentence st [] C rnd fuel = .done r st1 pos →
      r = List.intercalate [' '] (sentence_tokens st [] C rnd fuel)) := by
  have hst : st = model_of ts := by
    rw [tokenize_loop_eq] at h
    split at h
    · exact (Option.some.inj h).symm
    · cases h
  have hw : WellFormed st := wellFormed_reach wellFormed_empty (reach_tokenize_loop _ _ _ _ h)
  have hR : ∀ i a, st.tokens[i]? = some a → ∀ x ∈ st.succs i,
      ∃ k, ts[k]? = some a ∧ ts[k + 1]? = some x := by
    intro i a hia x hx
    subst hst
    have hia1 : (registry_of ts)[i]? = some a := hia
    have hrow : (model_of ts).succs i = (followers a ts).take MAX_SUCCESSOR_COUNT := by
      simp [model_of, hia1]
    rw [hrow] at hx
    exact mem_followers_adjacent a x ts (List.mem_of_mem_take hx)
  constructor
  · have hchain : List.Chain' (fun a b => ∃ k, ts[k]? = some a ∧ ts[k + 1]? = some b)
        (sentence_tokens st [] C rnd fuel) := by
      unfold sentence_tokens
      cases hstart : random_token_id_that_starts_a_sentence st rnd fuel 0 with
      | none => exact List.chain'_nil
      | some o =>
        cases o with
        | none => exact List.chain'_nil
        | some pr =>
          obtain ⟨id, pos⟩ := pr
          obtain ⟨hid, _⟩ := random_token_id_some st rnd fuel 0 id pos hstart
          simp only
          split
          · exact List.chain'_singleton _
          · apply walk_tokens_chain C rnd st hw.succs_mem _ hR
            rw [List.getD_eq_getElem?_getD, List.getElem?_eq_getElem hid]; rfl
    exact chain_getElem? _ _ hchain
  · intro r st1 pos hd
    obtain ⟨id, pos0, _, _, _, hcase⟩ := generate_sentence_done st [] C rnd fuel r st1 pos hd
    rcases hcase with ⟨_, hr, _, htok⟩ | ⟨_, hwk, htok⟩
    · rw [htok, hr]; simp [List.intercalate]
    · rw [htok, intercalate_cons_eq]
      simpa using walk_sentence C rnd fuel st id _ pos0 r st1 pos hwk

/-- C18 on the model of the example corpus. -/
theorem adjacent_pairs_from_source_witness :
    tokenize_loop Model.empty none victor_tokens = some (model_of victor_tokens) ∧
    (∀ (j : Nat) (a b : CStr),
      (sentence_tokens (model_of victor_tokens) [] 1000 (fun _ => 0) 2)[j]? = some a →
      (sentence_tokens (model_of victor_tokens) [] 1000 (fun _ => 0) 2)[j + 1]? = some b →
      ∃ i, victor_tokens[i]? = some a ∧ victor_tokens[i + 1]? = some b) ∧
    sentence_tokens (model_of victor_tokens) [] 1000 (fun _ => 0) 2
      = ["Victor".toList, "said".toList, "hello.".toList] :=
  ⟨by rw [tokenize_loop_eq, if_pos (by decide)],
    (adjacent_pairs_from_source victor_tokens (model_of victor_tokens)
      (by rw [tokenize_loop_eq, if_pos (by decide)]) 1000 (fun _ => 0) 2).1,
    by decide⟩

/-! ## The acceptance loops of `main` -/

theorem last_char_eq (s : CStr) : last_char s = s.getLast?.getD NUL := by
  induction s using List.reverseRecOn with
  | nil => rfl
  | append_singleton l a _ =>
    simp [last_char, List.getD_eq_getElem?_getD]

/-- A string whose `last_char` is a non-NUL character ends with it. -/
theorem getLast?_of_last_char (s : CStr) (c : Char) (h : last_char s = c) (hc : c ≠ NUL) :
    s.getLast? = some c := by
  rw [last_char_eq] at h
  cases hl : s.getLast? with
  | none => rw [hl] at h; exact absurd h.symm hc
  | some x => rw [hl] at h; simpa using h

/-- An acceptance loop that exits returns a sentence that one of its
`generate_sentence` calls wrote into an empty buffer and whose `last_char` is
the requested terminator. -/
theorem retry_loop_done (terminator : Char) (C : Nat) (rnd : Nat → Nat) (fuel : Nat) :
    ∀ (attempts : Nat) (st : Model) (off : Nat) (s : CStr) (st1 : Model) (pos : Nat),
      retry_loop terminator C rnd fuel attempts st off = .done s st1 pos →
      last_char s = terminator ∧
      ∃ st0 off0 pos0,
        generate_sentence st0 [] C (fun k => rnd (off0 + k)) fuel = .done s st1 pos0 ∧
        pos = off0 + pos0 := by
  intro attempts
  induction attempts with
  | zero => intro st off s st1 pos h; simp [retry_loop] at h
  | succ n ih =>
    intro st off s st1 pos h
    unfold retry_loop at h
    cases hg : generate_sentence st [] C (fun k => rnd (off + k)) fuel with
    | done r st2 p =>
      rw [hg] at h
      simp only at h
      by_cases hl : (last_char r != terminator) = true
      · rw [if_pos hl] at h
        exact ih _ _ _ _ _ h
      · rw [if_neg hl] at h
        injection h with e1 e2 e3
        subst e1; subst e2
        refine ⟨by simpa using hl, st, off, p, hg, e3.symm⟩
    | fatal => rw [hg] at h; cases h
    | undefined => rw [hg] at h; cases h
    | out_of_fuel => rw [hg] at h; cases h

/-! ## A full successor row in a full registry -/

theorem mem_a_tokens (n : Nat) (x : CStr) :
    x ∈ a_tokens n ↔ ∃ i, i < n ∧ x = List.replicate (i + 1) 'a' := by
  simp only [a_tokens, List.mem_map, List.mem_range]
  constructor
  · rintro ⟨i, hi, e⟩; exact ⟨i, hi, e.symm⟩
  · rintro ⟨i, hi, e⟩; exact ⟨i, hi, e.symm⟩

theorem replicate_not_mem_a_tokens (n m : Nat) (h : n ≤ m) :
    List.replicate (m + 1) 'a' ∉ a_tokens n := by
  intro hm
  obtain ⟨i, hi, e⟩ := (mem_a_tokens n _).mp hm
  have := congrArg List.length e
  simp only [List.length_replicate] at this
  omega

theorem a_tokens_succ (n : Nat) : a_tokens (n + 1) = a_tokens n ++ [List.replicate (n + 1) 'a'] := by
  simp [a_tokens, List.range_succ]

theorem a_tokens_length (n : Nat) : (a_tokens n).length = n := by
  simp [a_tokens]

theorem crowded_model_zero : crowded_model 0 0 = Model.empty := by
  show Model.mk _ _ = Model.mk _ _
  congr 1
  funext i
  by_cases h : i = 0 <;> simp [h]

theorem token_id_crowded_new (n : Nat) (h : n < MAX_WORD_COUNT) :
    token_id (crowded_model n 0) (List.replicate (n + 1) 'a')
      = some (n, crowded_model (n + 1) 0) := by
  have hm : List.replicate (n + 1) 'a' ∉ (crowded_model n 0).tokens :=
    replicate_not_mem_a_tokens n n (Nat.le_refl n)
  have hlt : (crowded_model n 0).tokens.length < MAX_WORD_COUNT := by
    show (a_tokens n).length < MAX_WORD_COUNT
    rw [a_tokens_length]; exact h
  rw [token_id_of_not_mem _ _ hm hlt]
  show some (_, Model.mk _ _) = some (_, Model.mk _ _)
  have hl : (crowded_model n 0).tokens.length = n := a_tokens_length n
  rw [hl]
  congr 2
  congr 1
  · exact (a_tokens_succ n).symm
  · funext i
    by_cases hi : i = n
    · subst hi
      by_cases h0 : i = 0 <;> simp [crowded_model, h0]
    · rw [Function.update_noteq hi]
      rfl

theorem reach_crowded_tokens (n : Nat) (h : n ≤ MAX_WORD_COUNT) :
    Reach Model.empty (crowded_model n 0) := by
  induction n with
  | zero => rw [crowded_model_zero]; exact Relation.ReflTransGen.refl
  | succ n ih =>
    exact Relation.ReflTransGen.tail (ih (by omega))
      (Step.token_id _ _ n _ (token_id_crowded_new n (by omega)))

theorem a_tokens_head (n : Nat) (h : 0 < n) : (a_tokens n)[0]? = some ['a'] := by
  obtain ⟨m, rfl⟩ : ∃ m, n = m + 1 := ⟨n - 1, by omega⟩
  simp [a_tokens, List.range_succ_eq_map]

theorem token_id_crowded_first (n k : Nat) (h : 0 < n) :
    token_id (crowded_model n k) ['a'] = some (0, crowded_model n k) := by
  have hget : (crowded_model n k).tokens[0]? = some ['a'] := a_tokens_head n h
  have hm : ['a'] ∈ (crowded_model n k).tokens := List.getElem?_mem hget
  rw [token_id_of_mem _ _ hm]
  obtain ⟨m, rfl⟩ : ∃ m, n = m + 1 := ⟨n - 1, by omega⟩
  have : first_index ['a'] (crowded_model (m + 1) k).tokens = 0 := by
    simp [crowded_model, a_tokens, List.range_succ_eq_map, first_index]
  rw [this]

theorem append_to_succs_crowded (n k : Nat) (h : 0 < n) (hk : k < MAX_SUCCESSOR_COUNT) :
    append_to_succs (crowded_model n k) ['a'] ['a'] = some (crowded_model n (k + 1)) := by
  have hrow : (crowded_model n k).succs 0 = List.replicate k ['a'] := by simp [crowded_model]
  have hlt : ((crowded_model n k).succs 0).length < MAX_SUCCESSOR_COUNT := by
    rw [hrow, List.length_replicate]; exact hk
  have hget : (crowded_model n k).tokens.getD 0 [] = ['a'] := by
    rw [List.getD_eq_getElem?_getD]
    show ((a_tokens n)[0]?).getD [] = ['a']
    rw [a_tokens_head n h]; rfl
  simp only [append_to_succs, token_id_crowded_first n k h, hget]
  rw [if_pos hlt, hrow]
  congr 1
  show Model.mk _ _ = Model.mk _ _
  congr 1
  funext i
  by_cases hi : i = 0
  · subst hi; simp [crowded_model, List.replicate_succ']
  · simp [crowded_model, hi]

theorem reach_crowded (n : Nat) (hn : 0 < n) (hle : n ≤ MAX_WORD_COUNT) (k : Nat)
    (hk : k ≤ MAX_SUCCESSOR_COUNT) : Reach Model.empty (crowded_model n k) := by
  induction k with
  | zero => exact reach_crowded_tokens n hle
  | succ k ih =>
    exact Relation.ReflTransGen.tail (ih (by omega))
      (Step.append_to_succs _ ['a'] ['a'] _ (append_to_succs_crowded n k hn (by omega)))

/-- In a reachable state with a full registry and a full successor row, the
append of an unregistered token to that row exits. -/
theorem crowded_full (n k : Nat) (hn : n = MAX_WORD_COUNT) (hk : k = MAX_SUCCESSOR_COUNT) :
    Reach Model.empty (crowded_model n k) ∧
    (crowded_model n k).tokens[0]? = some ['a'] ∧
    ((crowded_model n k).succs 0).length = k ∧
    (crowded_model n k).tokens.length = n ∧
    append_to_succs (crowded_model n k) ['a'] (List.replicate (n + 1) 'a') = none := by
  have hpos : 0 < n := by rw [hn]; unfold MAX_WORD_COUNT; omega
  have hr := reach_crowded n hpos (Nat.le_of_eq hn) k (Nat.le_of_eq hk)
  have hw := wellFormed_reach wellFormed_empty hr
  have h0 : (crowded_model n k).tokens[0]? = some ['a'] := a_tokens_head n hpos
  have hrow : ((crowded_model n k).succs 0).length = k := by simp [crowded_model]
  have hlen : (crowded_model n k).tokens.length = n := a_tokens_length n
  refine ⟨hr, h0, hrow, hlen, ?_⟩
  apply (append_to_succs_full _ hw ['a'] _ 0 h0 (by rw [hrow, hk])).2.2.mpr
  exact ⟨replicate_not_mem_a_tokens n n (Nat.le_refl n), by rw [hlen, hn]⟩

/-- C8 (as stated, refuted). The state whose registry holds the
`MAX_WORD_COUNT` tokens `a`, `aa`, … and in which the successor row of "a" is
full is reachable from the empty model by non-fatal `token_id` and
`append_to_succs` calls; there, the append of a token that is not registered
to the full row of "a" is an error: `token_id(succ)` is called before the row
is tested and takes the registry-capacity exit. -/
theorem append_to_full_row_fatal :
    Reach Model.empty (crowded_model MAX_WORD_COUNT MAX_SUCCESSOR_COUNT) ∧
    (crowded_model MAX_WORD_COUNT MAX_SUCCESSOR_COUNT).tokens[0]? = some ['a'] ∧
    ((crowded_model MAX_WORD_COUNT MAX_SUCCESSOR_COUNT).succs 0).length
      = MAX_SUCCESSOR_COUNT ∧
    (crowded_model MAX_WORD_COUNT MAX_SUCCESSOR_COUNT).tokens.length = MAX_WORD_COUNT ∧
    append_to_succs (crowded_model MAX_WORD_COUNT MAX_SUCCESSOR_COUNT) ['a']
      (List.replicate (MAX_WORD_COUNT + 1) 'a') = none :=
  crowded_full MAX_WORD_COUNT MAX_SUCCESSOR_COUNT rfl rfl

/-- C11. End-to-end acceptance loops of `main` (lines 153–166), for every
model and every sequence of random values.  If the first retry loop exits, the
string printed first is the sentence of that loop, written by a
`generate_sentence` call into a zeroed buffer, it ends with '?', and an empty
line is printed after it; if the second retry loop, run from where the first
one stopped, exits as well, exactly that sentence, the empty line and the
sentence of the second loop are printed, `main` returns, and the sentence
printed last ends with '!'.  Conversely, whatever is printed first ends with
'?' and whatever is printed third ends with '!': a sentence is printed only
when its `last_char` is the requested terminator.  A run of `main` on a text
whose tokenization gives the model prints the same. -/
theorem acceptance_loops (st : Model) (rnd : Nat → Nat) (fuel attempts : Nat)
    (printed : List CStr) (status : MainStatus)
    (h : main_loops st rnd fuel attempts = (printed, status)) :
    (∀ s1 st1 pos1, retry_loop '?' 1000 rnd fuel attempts st 0 = .done s1 st1 pos1 →
      printed[0]? = some s1 ∧ printed[1]? = some [] ∧
      last_char s1 = '?' ∧ s1.getLast? = some '?' ∧
      (∃ st0 off0 pos0,
        generate_sentence st0 [] 1000 (fun k => rnd (off0 + k)) fuel = .done s1 st1 pos0) ∧
      ∀ s2 st2 pos2, retry_loop '!' 1000 rnd fuel attempts st1 pos1 = .done s2 st2 pos2 →
        printed = [s1, [], s2] ∧ status = .returned ∧
        last_char s2 = '!' ∧ s2.getLast? = some '!' ∧
        ∃ st0 off0 pos0,
          generate_sentence st0 [] 1000 (fun k => rnd (off0 + k)) fuel = .done s2 st2 pos0) ∧
    (∀ s, printed[0]? = some s → last_char s = '?' ∧ s.getLast? = some '?' ∧
      ∃ st1 pos1, retry_loop '?' 1000 rnd fuel attempts st 0 = .done s st1 pos1) ∧
    (∀ s, printed[2]? = some s → last_char s = '!' ∧ s.getLast? = some '!' ∧
      status = .returned) ∧
    (status = .returned → ∃ s1 s2, printed = [s1, [], s2]) ∧
    printed.length ≤ 3 ∧
    (∀ book, tokenize_and_fill_succs Model.empty main_delimiters
        (replace_non_printable_chars_with_space book) = some st →
      main book rnd fuel attempts = (printed, status)) := by
  have hmain : ∀ book, tokenize_and_fill_succs Model.empty main_delimiters
      (replace_non_printable_chars_with_space book) = some st →
      main book rnd fuel attempts = (printed, status) := by
    intro book hb
    simp only [main, hb, h]
  unfold main_loops at h
  cases h1 : retry_loop '?' 1000 rnd fuel attempts st 0 with
  | done a st1 off =>
    obtain ⟨a1, sta, offa, posa, a2, _⟩ :=
      retry_loop_done '?' 1000 rnd fuel attempts st 0 _ _ _ h1
    have a3 := getLast?_of_last_char a '?' a1 (by decide)
    rw [h1] at h
    simp only at h
    cases h2 : retry_loop '!' 1000 rnd fuel attempts st1 off with
    | done b st2 off2 =>
      obtain ⟨b1, stb, offb, posb, b2, _⟩ :=
        retry_loop_done '!' 1000 rnd fuel attempts st1 off _ _ _ h2
      have b3 := getLast?_of_last_char b '!' b1 (by decide)
      rw [h2] at h
      simp only [Prod.mk.injEq] at h
      obtain ⟨hp, hs⟩ := h
      subst hp; subst hs
      refine ⟨?_, ?_, ?_, fun _ => ⟨a, b, rfl⟩, by simp, hmain⟩
      · intro s1 st1' pos1 e
        injection e with e1 e2 e3
        subst e1; subst e2; subst e3
        refine ⟨rfl, rfl, a1, a3, ⟨sta, offa, posa, a2⟩, ?_⟩
        intro s2 st2' pos2 e'
        rw [h2] at e'
        injection e' with f1 f2 f3
        subst f1; subst f2
        exact ⟨rfl, rfl, b1, b3, ⟨stb, offb, posb, b2⟩⟩
      · intro s hs
        have : a = s := by simpa using hs
        subst this
        exact ⟨a1, a3, st1, off, rfl⟩
      · intro s hs
        have : b = s := by simpa using hs
        subst this
        exact ⟨b1, b3, rfl⟩
    | fatal =>
      rw [h2] at h
      simp only [Prod.mk.injEq] at h
      obtain ⟨hp, hs⟩ := h
      subst hp; subst hs
      refine ⟨?_, ?_, ?_, (by intro e; cases e), by simp, hmain⟩
      · intro s1 st1' pos1 e
        injection e with e1 e2 e3
        subst e1; subst e2; subst e3
        refine ⟨rfl, rfl, a1, a3, ⟨sta, offa, posa, a2⟩, ?_⟩
        intro s2 st2' pos2 e'
        rw [h2] at e'; cases e'
      · intro s hs
        have : a = s := by simpa using hs
        subst this
        exact ⟨a1, a3, st1, off, rfl⟩
      · intro s hs; simp at hs
    | undefined =>
      rw [h2] at h
      simp only [Prod.mk.injEq] at h
      obtain ⟨hp, hs⟩ := h
      subst hp; subst hs
      refine ⟨?_, ?_, ?_, (by intro e; cases e), by simp, hmain⟩
      · intro s1 st1' pos1 e
        injection e with e1 e2 e3
        subst e1; subst e2; subst e3
        refine ⟨rfl, rfl, a1, a3, ⟨sta, offa, posa, a2⟩, ?_⟩
        intro s2 st2' pos2 e'
        rw [h2] at e'; cases e'
      · intro s hs
        have : a = s := by simpa using hs
        subst this
        exact ⟨a1, a3, st1, off, rfl⟩
      · intro s hs; simp at hs
    | out_of_fuel =>
      rw [h2] at h
      simp only [Prod.mk.injEq] at h
      obtain ⟨hp, hs⟩ := h
      subst hp; subst hs
      refine ⟨?_, ?_, ?_, (by intro e; cases e), by simp, hmain⟩
      · intro s1 st1' pos1 e
        injection e with e1 e2 e3
        subst e1; subst e2; subst e3
        refine ⟨rfl, rfl, a1, a3, ⟨sta, offa, posa, a2⟩, ?_⟩
        intro s2 st2' pos2 e'
        rw [h2] at e'; cases e'
      · intro s hs
        have : a = s := by simpa using hs
        subst this
        exact ⟨a1, a3, st1, off, rfl⟩
      · intro s hs; simp at hs
  | fatal =>
    rw [h1] at h
    simp only [Prod.mk.injEq] at h
    obtain ⟨hp, hs⟩ := h
    subst hp; subst hs
    exact ⟨(by intro _ _ _ e; cases e), (by intro s hs; simp at hs), (by intro s hs; simp at hs),
      (by intro e; cases e), by simp, hmain⟩
  | undefined =>
    rw [h1] at h
    simp only [Prod.mk.injEq] at h
    obtain ⟨hp, hs⟩ := h
    subst hp; subst hs
    exact ⟨(by intro _ _ _ e; cases e), (by intro s hs; simp at hs), (by intro s hs; simp at hs),
      (by intro e; cases e), by simp, hmain⟩
  | out_of_fuel =>
    rw [h1] at h
    simp only [Prod.mk.injEq] at h
    obtain ⟨hp, hs⟩ := h
    subst hp; subst hs
    exact ⟨(by intro _ _ _ e; cases e), (by intro s hs; simp at hs), (by intro s hs; simp at hs),
      (by intro e; cases e), by simp, hmain⟩

/-- C11 on the text "Who? Me!": `main` prints "Who?", an empty line and "Me!". -/
theorem acceptance_loops_witness :
    main_loops (model_of who_me_tokens) (fun n => n) 1 1
      = (["Who?".toList, [], "Me!".toList], .returned) ∧
    tokenize_and_fill_succs Model.empty main_delimiters
      (replace_non_printable_chars_with_space "Who? Me!".toList)
      = some (model_of who_me_tokens) ∧
    main "Who? Me!".toList (fun n => n) 1 1 = (["Who?".toList, [], "Me!".toList], .returned) ∧
    (∀ s, (["Who?".toList, [], "Me!".toList] : List CStr)[0]? = some s →
      last_char s = '?' ∧ s.getLast? = some '?' ∧
      ∃ st1 pos1, retry_loop '?' 1000 (fun n => n) 1 1 (model_of who_me_tokens) 0
        = .done s st1 pos1) ∧
    (∀ s, (["Who?".toList, [], "Me!".toList] : List CStr)[2]? = some s →
      last_char s = '!' ∧ s.getLast? = some '!' ∧ MainStatus.returned = .returned) :=
  ⟨rfl, tokenize_eq_model_of _ _ (by decide) (by decide),
    (acceptance_loops (model_of who_me_tokens) (fun n => n) 1 1 _ _ rfl).2.2.2.2.2
      "Who? Me!".toList (tokenize_eq_model_of _ _ (by decide) (by decide)),
    (acceptance_loops (model_of who_me_tokens) (fun n => n) 1 1 _ _ rfl).2.1,
    (acceptance_loops (model_of who_me_tokens) (fun n => n) 1 1 _ _ rfl).2.2.1⟩

end FrankenText
